import Mathlib

/-!
# redis-go: the RESP codec, the command handlers and the append-only file

A shallow embedding of `resp.go`, `handler.go` and `aof.go`.

* Go `string` values are byte strings, so they are lists of bytes (`Bytes`); the
  `typ` tag of a `Value`, which the program only ever compares with ASCII
  literals, is a Lean `String`.
* Go `int` is taken to be 64 bits wide; `strconv.ParseInt(_, 10, 64)` and
  `strconv.Itoa` are modelled after the standard library.
* `bufio.Reader` is modelled after the standard library with its default
  buffer of 4096 bytes.  The underlying `io.Reader` is a regular file (or an
  in-memory reader): one read delivers as many bytes as were asked for, up to
  what is left.
* Go maps are finite maps (`Finmap`); the order in which `range` visits a map
  is a parameter of `hgetall`.
* A slice that is `nil` and a slice that is empty are both the empty list.
* `make([]byte, len)` panics on a negative `len` and on one above `maxAlloc`,
  the limit of the Go runtime on 64-bit Linux; any other allocation succeeds.
* The mutexes have no part in a sequential run and are left out.
-/

namespace RedisGo

/-! ## Bytes and constants -/

abbrev Bytes := List UInt8

/-- The bytes of an ASCII string literal of the source. -/
def ascii (s : String) : Bytes := s.toList.map (fun c => c.toNat.toUInt8)

/-- The type byte `+` of a simple string. -/
def STRING : UInt8 := 43
/-- The type byte `-` of an error. -/
def ERROR : UInt8 := 45
/-- The type byte `:` of an integer. -/
def INTEGER : UInt8 := 58
/-- The type byte `$` of a bulk string. -/
def BULK : UInt8 := 36
/-- The type byte `*` of an array. -/
def ARRAY : UInt8 := 42
/-- The byte `\r`. -/
def CR : UInt8 := 13
/-- The byte `\n`. -/
def LF : UInt8 := 10

/-- The struct `Value` of `resp.go`: `typ`, `str`, `num`, `bulk`, `array`. -/
inductive Value where
  | mk (typ : String) (str : Bytes) (num : Int) (bulk : Bytes) (array : List Value)

namespace Value

def typ : Value → String
  | mk t _ _ _ _ => t

def str : Value → Bytes
  | mk _ s _ _ _ => s

def num : Value → Int
  | mk _ _ n _ _ => n

def bulk : Value → Bytes
  | mk _ _ _ b _ => b

def array : Value → List Value
  | mk _ _ _ _ a => a

/-- The zero value `Value{}`. -/
def zero : Value := mk "" [] 0 [] []

/-- The literal `Value{typ: "string", str: s}`. -/
def simple (s : Bytes) : Value := mk "string" s 0 [] []

/-- The literal `Value{typ: "error", str: s}`. -/
def error (s : Bytes) : Value := mk "error" s 0 [] []

/-- The literal `Value{typ: "null"}`. -/
def null : Value := mk "null" [] 0 [] []

/-- The literal `Value{typ: "bulk", bulk: s}`. -/
def bulkString (s : Bytes) : Value := mk "bulk" [] 0 s []

/-- The literal `Value{typ: "array", array: xs}`. -/
def arrayOf (xs : List Value) : Value := mk "array" [] 0 [] xs

/-- The literal `Value{typ: "integer", num: n}` (no function of the source builds it). -/
def integer (n : Int) : Value := mk "integer" [] n [] []

end Value

/-! ## strconv -/

/-- The errors a read can return: `io.EOF`, `strconv.ErrSyntax`, `strconv.ErrRange`. -/
inductive Err where
  | EOF
  | ErrSyntax
  | ErrRange
  deriving DecidableEq

/-- The decimal digits of `n` put in front of `acc`; `fuel` bounds the number of
digits. -/
def itoaAux : Nat → Nat → Bytes → Bytes
  | 0, _, acc => acc
  | fuel + 1, n, acc =>
    if n < 10 then (48 + n.toUInt8) :: acc
    else itoaAux fuel (n / 10) ((48 + (n % 10).toUInt8) :: acc)

/-- The decimal digits of a natural number, as `strconv.Itoa` writes them. -/
def itoaNat (n : Nat) : Bytes := itoaAux (n + 1) n []

/-- `strconv.Itoa`. -/
def Itoa (i : Int) : Bytes :=
  if i < 0 then 45 :: itoaNat i.natAbs else itoaNat i.natAbs

/-- The loop of `strconv.ParseUint(s, 10, 64)`: `n` is the number read so far. -/
def parseUintLoop : Bytes → Nat → Except Err Nat
  | [], n => .ok n
  | c :: cs, n =>
    if 48 ≤ c ∧ c ≤ 57 then
      if n ≥ (2 ^ 64 - 1) / 10 + 1 then .error .ErrRange
      else if n * 10 + (c.toNat - 48) > 2 ^ 64 - 1 then .error .ErrRange
      else parseUintLoop cs (n * 10 + (c.toNat - 48))
    else .error .ErrSyntax

/-- `strconv.ParseUint(s, 10, 64)`. -/
def ParseUint (s : Bytes) : Except Err Nat :=
  if s = [] then .error .ErrSyntax else parseUintLoop s 0

/-- `strconv.ParseInt(s, 10, 64)`: an optional sign, then decimal digits, the
result within the range of `int64`. -/
def ParseInt (s : Bytes) : Except Err Int :=
  match s with
  | [] => .error .ErrSyntax
  | c :: rest =>
    let neg := decide (c = 45)
    let body := if c = 43 ∨ c = 45 then rest else s
    match ParseUint body with
    | .error .ErrRange => .error .ErrRange
    | .error e => .error e
    | .ok un =>
      if !neg && decide (un ≥ 2 ^ 63) then .error .ErrRange
      else if neg && decide (un > 2 ^ 63) then .error .ErrRange
      else .ok (if neg then -(un : Int) else (un : Int))

/-! ## Marshal -/

/-- `Value.marshalString`. -/
def marshalString (v : Value) : Bytes := [STRING] ++ v.str ++ [CR, LF]

/-- `Value.marshalBulk`. -/
def marshalBulk (v : Value) : Bytes :=
  [BULK] ++ Itoa v.bulk.length ++ [CR, LF] ++ v.bulk ++ [CR, LF]

/-- `Value.marshallError`. -/
def marshallError (v : Value) : Bytes := [ERROR] ++ v.str ++ [CR, LF]

/-- `Value.marshallNull`. -/
def marshallNull (_v : Value) : Bytes := ascii "$-1\r\n"

mutual
/-- `Value.Marshal`; the branch of `"array"` is `marshalArray`. -/
def Marshal : Value → Bytes
  | .mk typ str num bulk array =>
    if typ = "array" then
      [ARRAY] ++ Itoa array.length ++ [CR, LF] ++ marshalElems array
    else if typ = "bulk" then marshalBulk (.mk typ str num bulk array)
    else if typ = "string" then marshalString (.mk typ str num bulk array)
    else if typ = "null" then marshallNull (.mk typ str num bulk array)
    else if typ = "error" then marshallError (.mk typ str num bulk array)
    else []
/-- The loop of `marshalArray`: the encodings of the elements, in order. -/
def marshalElems : List Value → Bytes
  | [] => []
  | x :: xs => Marshal x ++ marshalElems xs
end

/-! ## bufio.Reader over a file -/

/-- The size of the buffer of `bufio.NewReader`. -/
def defaultBufSize : Nat := 4096

/-- A `bufio.Reader` over a file: `buf` is what is buffered and not yet read,
`src` is what the file still holds past the file offset. -/
structure Reader where
  buf : Bytes
  src : Bytes
  deriving DecidableEq

namespace Reader

/-- The bytes not yet handed out. -/
def remaining (r : Reader) : Nat := r.buf.length + r.src.length

/-- `bufio.Reader.ReadByte`: the next byte, after filling the empty buffer with
one read of the file; `none` is `io.EOF`. -/
def ReadByte (r : Reader) : Option (UInt8 × Reader) :=
  match r.buf with
  | b :: bs => some (b, { r with buf := bs })
  | [] =>
    match r.src.take defaultBufSize with
    | [] => none
    | b :: bs => some (b, { buf := bs, src := r.src.drop defaultBufSize })

/-- `bufio.Reader.Read(p)` with `len(p) = n`: the bytes copied into `p`, taken
from the buffer, or from at most one read of the file when the buffer is empty
(straight into `p` when `p` is at least as large as the buffer). -/
def Read (r : Reader) (n : Nat) : Bytes × Reader :=
  if n = 0 then ([], r)
  else
    match r.buf with
    | [] =>
      if n ≥ defaultBufSize then (r.src.take n, { buf := [], src := r.src.drop n })
      else
        ((r.src.take defaultBufSize).take n,
          { buf := (r.src.take defaultBufSize).drop n, src := r.src.drop defaultBufSize })
    | b :: bs => ((b :: bs).take n, { r with buf := (b :: bs).drop n })

end Reader

/-- `NewResp(rd)` for a file whose bytes past the offset are `data`. -/
def NewResp (data : Bytes) : Reader := { buf := [], src := data }

/-! ## Resp -/

/-- What a call on a `Resp` comes to: it returns `a` with a `nil` error (`ok`),
it returns `a` with the error `e` (`fail`), it panics, or the fuel of the model
ran out (`starved`).  The reader is the state the call leaves behind. -/
inductive Res (α : Type) where
  | ok (a : α) (r : Reader)
  | fail (a : α) (e : Err) (r : Reader)
  | panics
  | starved

/-- The loop of `readLine`: `line` and `n` are the local variables of the source. -/
def readLineLoop : Nat → Reader → Bytes → Nat → Res (Bytes × Nat)
  | 0, _, _, _ => .starved
  | fuel + 1, r, line, n =>
    match r.ReadByte with
    | none => .fail ([], 0) .EOF r
    | some (b, r1) =>
      if 2 ≤ (line ++ [b]).length ∧ (line ++ [b])[(line ++ [b]).length - 2]? = some CR then
        .ok ((line ++ [b]).take ((line ++ [b]).length - 2), n + 1) r1
      else readLineLoop fuel r1 (line ++ [b]) (n + 1)

/-- `Resp.readLine`: every iteration takes one byte, so one more iteration than
there are bytes is enough. -/
def readLine (r : Reader) : Res (Bytes × Nat) :=
  readLineLoop (r.remaining + 1) r [] 0

/-- `Resp.readInteger`. -/
def readInteger (r : Reader) : Res (Int × Nat) :=
  match readLine r with
  | .fail _ e r1 => .fail (0, 0) e r1
  | .ok (line, n) r1 =>
    match ParseInt line with
    | .error e => .fail (0, n) e r1
    | .ok i64 => .ok (i64, n) r1
  | .panics => .panics
  | .starved => .starved

/-- The largest allocation of the Go runtime on 64-bit Linux (`maxAlloc`,
`1 << 48`): `makeslice` panics with "len out of range" above it. -/
def maxAlloc : Int := 2 ^ 48

/-- `Resp.readBulk`: `make([]byte, len)` panics on a negative `len` and on one
above `maxAlloc`; what `r.reader.Read(bulk)` and `r.readLine()` return is
dropped, as in the source, so the bytes `Read` did not deliver stay zero. -/
def readBulk (r : Reader) : Res Value :=
  match readInteger r with
  | .fail _ e r1 => .fail (Value.mk "bulk" [] 0 [] []) e r1
  | .ok (len, _) r1 =>
    if len < 0 ∨ maxAlloc < len then .panics
    else
      let got := (r1.Read len.toNat).1
      let bulk := got ++ List.replicate (len.toNat - got.length) 0
      match readLine (r1.Read len.toNat).2 with
      | .ok _ r3 => .ok (Value.mk "bulk" [] 0 bulk []) r3
      | .fail _ _ r3 => .ok (Value.mk "bulk" [] 0 bulk []) r3
      | .panics => .panics
      | .starved => .starved
  | .panics => .panics
  | .starved => .starved

/-- The `for` loop of `readArray`: `k` iterations are left, `acc` is `v.array`
and `rd` is `Resp.Read`. -/
def readArrayLoop (rd : Reader → Res Value) : Nat → Reader → List Value → Res Value
  | 0, r, acc => .ok (Value.mk "array" [] 0 [] acc) r
  | k + 1, r, acc =>
    match rd r with
    | .ok val r1 => readArrayLoop rd k r1 (acc ++ [val])
    | .fail _ e r1 => .fail (Value.mk "array" [] 0 [] acc) e r1
    | .panics => .panics
    | .starved => .starved

/-- `Resp.readArray`, `rd` being `Resp.Read`; a negative length runs the loop
zero times. -/
def readArray (rd : Reader → Res Value) (r : Reader) : Res Value :=
  match readInteger r with
  | .fail _ e r1 => .fail (Value.mk "array" [] 0 [] []) e r1
  | .ok (len, _) r1 => readArrayLoop rd len.toNat r1 []
  | .panics => .panics
  | .starved => .starved

/-- `Resp.Read` with a bound on the depth of the recursion. -/
def ReadFuel : Nat → Reader → Res Value
  | 0, _ => .starved
  | fuel + 1, r =>
    match r.ReadByte with
    | none => .fail Value.zero .EOF r
    | some (t, r1) =>
      if t = ARRAY then readArray (ReadFuel fuel) r1
      else if t = BULK then readBulk r1
      else .ok Value.zero r1

/-- `Resp.Read`: a nested call is reached only after a byte was taken, so the
depth is at most the number of bytes left. -/
def Resp.Read (r : Reader) : Res Value := ReadFuel (r.remaining + 1) r

/-! ## The append-only file -/

/-- An `os.File` opened for reading and writing: its bytes and its offset. -/
structure File where
  content : Bytes
  off : Nat
  deriving DecidableEq

/-- `os.File.Write`: the bytes go where the offset is, over what was there, and
the offset moves past them. -/
def File.Write (f : File) (data : Bytes) : File :=
  { content := f.content.take f.off ++ List.replicate (f.off - f.content.length) 0 ++ data ++
      f.content.drop (f.off + data.length)
    off := f.off + data.length }

/-- The struct `Aof`; its field `rd` is never read and its mutex has no part in
a sequential run. -/
structure Aof where
  file : File
  deriving DecidableEq

/-- `NewAof(path)` when the file at `path` holds `c` (`[]` when it is created):
`os.OpenFile(path, os.O_CREATE|os.O_RDWR, 0666)` leaves the offset at 0. -/
def NewAof (c : Bytes) : Aof := { file := { content := c, off := 0 } }

/-- `Aof.Write` when the write to the file succeeds. -/
def Aof.Write (aof : Aof) (value : Value) : Aof :=
  { file := aof.file.Write (Marshal value) }

/-- What `Aof.Read` comes to: it returns `err` after calling `fn` on `calls` in
order, or it panics after these calls, or the fuel of the model ran out. -/
inductive AofRes where
  | ret (calls : List Value) (err : Option Err) (aof : Aof)
  | panics (calls : List Value)
  | starved

/-- The `for` loop of `Aof.Read`: `content` is the file, `calls` the values
`fn` was called on so far. -/
def aofReadLoop (content : Bytes) : Nat → Reader → List Value → AofRes
  | 0, _, _ => .starved
  | fuel + 1, reader, calls =>
    match Resp.Read reader with
    | .fail _ e reader1 =>
      if e = .EOF then
        .ret calls none { file := { content := content, off := content.length - reader1.src.length } }
      else
        .ret calls (some e) { file := { content := content, off := content.length - reader1.src.length } }
    | .ok value reader1 => aofReadLoop content fuel reader1 (calls ++ [value])
    | .panics => .panics calls
    | .starved => .starved

/-- `Aof.Read`: seek to the start, then decode value after value; a `Read` that
returns no error has taken a byte, so one more iteration than there are bytes
is enough. -/
def Aof.Read (aof : Aof) : AofRes :=
  aofReadLoop aof.file.content (aof.file.content.length + 1) (NewResp aof.file.content) []

/-! ## The handlers -/

/-- A Go `map[string]string`. -/
abbrev StrMap := Finmap (fun _ : Bytes => Bytes)

/-- The package variables `SETs` and `HSETs`. -/
structure Store where
  SETs : StrMap
  HSETs : Finmap (fun _ : Bytes => StrMap)

/-- The store at program start: both maps empty. -/
def Store.empty : Store := { SETs := ∅, HSETs := ∅ }

/-- `ping`. -/
def ping (st : Store) (args : List Value) : Value × Store :=
  match args with
  | [] => (Value.mk "string" (ascii "PONG") 0 [] [], st)
  | a0 :: _ => (Value.mk "string" a0.bulk 0 [] [], st)

/-- `set`. -/
def set (st : Store) (args : List Value) : Value × Store :=
  match args with
  | [a0, a1] =>
    (Value.mk "string" (ascii "OK") 0 [] [], { st with SETs := st.SETs.insert a0.bulk a1.bulk })
  | _ => (Value.mk "error" (ascii "ERR wrong number of arguments for 'set' command") 0 [] [], st)

/-- `get`. -/
def get (st : Store) (args : List Value) : Value × Store :=
  match args with
  | [a0] =>
    match st.SETs.lookup a0.bulk with
    | none => (Value.mk "null" [] 0 [] [], st)
    | some value => (Value.mk "bulk" [] 0 value [], st)
  | _ => (Value.mk "error" (ascii "ERR wrong number of arguments for 'get' command") 0 [] [], st)

/-- `hset`: an unseen hash name gets an empty inner map first. -/
def hset (st : Store) (args : List Value) : Value × Store :=
  match args with
  | [a0, a1, a2] =>
    (Value.mk "string" (ascii "OK") 0 [] [],
      { st with HSETs :=
          st.HSETs.insert a0.bulk (((st.HSETs.lookup a0.bulk).getD ∅).insert a1.bulk a2.bulk) })
  | _ => (Value.mk "error" (ascii "ERR wrong number of arguments for 'hset' command") 0 [] [], st)

/-- `hget`: indexing the `nil` map of an absent hash name finds nothing. -/
def hget (st : Store) (args : List Value) : Value × Store :=
  match args with
  | [a0, a1] =>
    match (st.HSETs.lookup a0.bulk).bind (fun m => m.lookup a1.bulk) with
    | none => (Value.mk "null" [] 0 [] [], st)
    | some value => (Value.mk "bulk" [] 0 value [], st)
  | _ => (Value.mk "error" (ascii "ERR wrong number of arguments for 'hget' command") 0 [] [], st)

/-- The loop body of `hgetall` over the entries in the order `range` visits them. -/
def flattenPairs : List (Sigma (fun _ : Bytes => Bytes)) → List Value
  | [] => []
  | p :: ps => Value.mk "bulk" [] 0 p.1 [] :: Value.mk "bulk" [] 0 p.2 [] :: flattenPairs ps

/-- `hgetall`; `order m` is the order in which `range` visits the entries of `m`. -/
def hgetall (order : StrMap → List (Sigma (fun _ : Bytes => Bytes)))
    (st : Store) (args : List Value) : Value × Store :=
  match args with
  | [a0] =>
    match st.HSETs.lookup a0.bulk with
    | none => (Value.mk "null" [] 0 [] [], st)
    | some value => (Value.mk "array" [] 0 [] (flattenPairs (order value)), st)
  | _ => (Value.mk "error" (ascii "ERR wrong number of arguments for 'hgetall' command") 0 [] [], st)

/-- An order `range` may take: every entry of the map once, none else. -/
def RangeOrder (order : StrMap → List (Sigma (fun _ : Bytes => Bytes))) : Prop :=
  ∀ m : StrMap, (order m : Multiset (Sigma (fun _ : Bytes => Bytes))) = m.entries

/-! ## Replay of write commands -/

/-- The two commands that change the store. -/
inductive WriteCmd where
  | SET
  | HSET
  deriving DecidableEq

/-- One command applied through its handler; the reply is dropped. -/
def applyCmd (st : Store) (c : WriteCmd × List Value) : Store :=
  match c.1 with
  | .SET => (set st c.2).2
  | .HSET => (hset st c.2).2

/-- The commands applied in order. -/
def replay (st : Store) (cs : List (WriteCmd × List Value)) : Store :=
  cs.foldl applyCmd st

/-- The value of field `f` of hash `h`, if there is one. -/
def Store.field (st : Store) (h f : Bytes) : Option Bytes :=
  (st.HSETs.lookup h).bind (fun m => m.lookup f)

/-- The text of the arity error of command `c`. -/
def arityText (c : String) : Bytes :=
  ascii ("wrong number of arguments for '" ++ c ++ "' command")

/-- A store transformer that writes fixed values at fixed places and keeps the
rest: what a run of `set` and `hset` calls is. -/
def Overwrites (F : Store → Store) : Prop :=
  ∃ (g : Bytes → Option Bytes) (G : Bytes → Bool) (gh : Bytes → Bytes → Option Bytes),
    ∀ st : Store,
      (∀ k, (F st).SETs.lookup k = (g k).orElse (fun _ => st.SETs.lookup k)) ∧
      (∀ h, ((F st).HSETs.lookup h).isSome = (G h || (st.HSETs.lookup h).isSome)) ∧
      (∀ h f, (F st).field h f = (gh h f).orElse (fun _ => st.field h f))

/-! ## One order for `range` -/

/-- An entry as a pair of lists of numbers, to compare entries with. -/
def entryCode (p : Sigma (fun _ : Bytes => Bytes)) : Lex (List Nat × List Nat) :=
  toLex (p.1.map UInt8.toNat, p.2.map UInt8.toNat)

/-- Entries compared by key, then by value. -/
def entryLe (p q : Sigma (fun _ : Bytes => Bytes)) : Prop := entryCode p ≤ entryCode q

instance : DecidableRel entryLe := fun p q => by
  unfold entryLe
  infer_instance

instance : IsTrans (Sigma (fun _ : Bytes => Bytes)) entryLe :=
  ⟨fun _ _ _ h1 h2 => le_trans h1 h2⟩

instance : IsTotal (Sigma (fun _ : Bytes => Bytes)) entryLe :=
  ⟨fun p q => le_total (entryCode p) (entryCode q)⟩

instance : IsAntisymm (Sigma (fun _ : Bytes => Bytes)) entryLe :=
  ⟨fun p q h1 h2 => by
    have h : entryCode p = entryCode q := le_antisymm h1 h2
    rcases p with ⟨a, b⟩
    rcases q with ⟨c, d⟩
    have h' : (a.map UInt8.toNat, b.map UInt8.toNat) = (c.map UInt8.toNat, d.map UInt8.toNat) := h
    have hinj : Function.Injective UInt8.toNat := by
      intro x y hxy
      cases x; cases y
      simp only [UInt8.toNat] at hxy
      congr
      exact BitVec.eq_of_toNat_eq hxy
    have e1 : a = c := List.map_injective_iff.mpr hinj (Prod.ext_iff.mp h').1
    have e2 : b = d := List.map_injective_iff.mpr hinj (Prod.ext_iff.mp h').2
    rw [e1, e2]⟩

/-- One order `range` may take: the entries sorted. -/
def sortedOrder (m : StrMap) : List (Sigma (fun _ : Bytes => Bytes)) :=
  m.entries.sort entryLe

/-! ## Requests -/

mutual
/-- A value built from the Array and BulkString variants only: a BulkString
`Value{typ: "bulk", bulk: s}` or an Array `Value{typ: "array", array: xs}` of
such values, every other field zero. -/
def isReq : Value → Bool
  | .mk typ str num bulk array =>
    (typ == "bulk" && str.isEmpty && num == 0 && array.isEmpty) ||
    (typ == "array" && str.isEmpty && num == 0 && bulk.isEmpty && allReq array)
/-- Every value of the list is built from the Array and BulkString variants only. -/
def allReq : List Value → Bool
  | [] => true
  | x :: xs => isReq x && allReq xs
end

/-! ## The input as a stream -/

/-- All the bytes a reader has still to hand out, in order: what is buffered,
then what the file holds. -/
def Reader.stream (r : Reader) : Bytes := r.buf ++ r.src

/-- The body of `Resp.Read`, `rd` standing for the recursive call. -/
def ReadStep (rd : Reader → Res Value) (r : Reader) : Res Value :=
  match r.ReadByte with
  | none => .fail Value.zero .EOF r
  | some (t, r1) =>
    if t = ARRAY then readArray rd r1
    else if t = BULK then readBulk r1
    else .ok Value.zero r1

/-- A call has ended with at most `n` bytes left: it returned or panicked, and
when it returned `io.EOF` nothing is left. -/
def Res.Ends {α : Type} (n : Nat) : Res α → Prop
  | .ok _ r => r.remaining ≤ n
  | .fail _ e r => r.remaining ≤ n ∧ (e = Err.EOF → r.remaining = 0)
  | .panics => True
  | .starved => False

/-- One or more ASCII decimal digits. -/
def isDigits (ds : Bytes) : Prop := ds ≠ [] ∧ ∀ c ∈ ds, (48 : UInt8) ≤ c ∧ c ≤ 57

/-- A length field as `strconv.ParseInt` takes it: decimal digits, after an
optional sign `+` or `-`. -/
def lengthField (line : Bytes) : Prop :=
  isDigits line ∨ ∃ ds, (line = 43 :: ds ∨ line = 45 :: ds) ∧ isDigits ds

/-- The encoding of a value cut short inside a length line or right before an
element of an array, at any depth; not inside a bulk payload or the CRLF after
it. -/
inductive Cut : Value → Bytes → Prop where
  | bulkLine (s : Bytes) (j : Nat) (hj : j < (Itoa (s.length : Int) ++ [CR, LF]).length) :
      Cut (Value.bulkString s) (BULK :: (Itoa (s.length : Int) ++ [CR, LF]).take j)
  | arrayLine (xs : List Value) (j : Nat)
      (hj : j < (Itoa (xs.length : Int) ++ [CR, LF]).length) :
      Cut (Value.arrayOf xs) (ARRAY :: (Itoa (xs.length : Int) ++ [CR, LF]).take j)
  | arrayElem (pre : List Value) (x : Value) (post : List Value) :
      Cut (Value.arrayOf (pre ++ x :: post))
        (ARRAY :: (Itoa ((pre ++ x :: post).length : Int) ++ CR :: LF :: marshalElems pre))
  | arrayIn (pre : List Value) (x : Value) (post : List Value) (c : Bytes) (h : Cut x c) :
      Cut (Value.arrayOf (pre ++ x :: post))
        (ARRAY :: (Itoa ((pre ++ x :: post).length : Int) ++ CR :: LF :: (marshalElems pre ++ c)))


/-! # Theorems -/

/-! ## strconv: `ParseInt` reads back what `Itoa` wrote -/

theorem digit_byte (d : Nat) (h : d < 10) :
    (48 : UInt8) ≤ 48 + d.toUInt8 ∧ 48 + d.toUInt8 ≤ 57 ∧ (48 + d.toUInt8).toNat - 48 = d ∧
      48 + d.toUInt8 ≠ CR ∧ 48 + d.toUInt8 ≠ 43 ∧ 48 + d.toUInt8 ≠ 45 := by
  interval_cases d <;> decide

theorem itoaAux_ne_nil (fuel n : Nat) (acc : Bytes) (h : acc ≠ [] ∨ 0 < fuel) :
    itoaAux fuel n acc ≠ [] := by
  induction fuel generalizing n acc with
  | zero =>
    rcases h with h | h
    · simpa [itoaAux] using h
    · omega
  | succ fuel ih =>
    unfold itoaAux
    split
    · simp
    · exact ih _ _ (Or.inl (by simp))

theorem itoaAux_digits (fuel n : Nat) (acc : Bytes) :
    ∀ b ∈ itoaAux fuel n acc, b ∈ acc ∨ ∃ d, d < 10 ∧ b = 48 + d.toUInt8 := by
  induction fuel generalizing n acc with
  | zero => intro b hb; exact Or.inl (by simpa [itoaAux] using hb)
  | succ fuel ih =>
    intro b hb
    unfold itoaAux at hb
    split at hb
    · rename_i hn
      rcases List.mem_cons.mp hb with rfl | hb
      · exact Or.inr ⟨n, hn, rfl⟩
      · exact Or.inl hb
    · rcases ih _ _ b hb with h | h
      · rcases List.mem_cons.mp h with rfl | h
        · exact Or.inr ⟨n % 10, Nat.mod_lt _ (by decide), rfl⟩
        · exact Or.inl h
      · exact Or.inr h

theorem parse_itoaAux (fuel n : Nat) (acc : Bytes) (hf : n < fuel) (hn : n < 2 ^ 64) :
    parseUintLoop (itoaAux fuel n acc) 0 = parseUintLoop acc n := by
  induction fuel generalizing n acc with
  | zero => omega
  | succ fuel ih =>
    unfold itoaAux
    split
    · rename_i h10
      obtain ⟨h1, h2, h3, -⟩ := digit_byte n h10
      rw [parseUintLoop, if_pos ⟨h1, h2⟩, h3]
      have c1 : ¬ (0 ≥ (2 ^ 64 - 1) / 10 + 1) := by norm_num
      have c2 : ¬ (0 * 10 + n > 2 ^ 64 - 1) := by omega
      rw [if_neg c1, if_neg c2]
      simp
    · rename_i h10
      have hlt : n / 10 < fuel := by omega
      rw [ih (n / 10) _ hlt (by omega)]
      obtain ⟨h1, h2, h3, -⟩ := digit_byte (n % 10) (Nat.mod_lt _ (by decide))
      rw [parseUintLoop, if_pos ⟨h1, h2⟩, h3]
      have c1 : ¬ (n / 10 ≥ (2 ^ 64 - 1) / 10 + 1) := by omega
      have c2 : ¬ (n / 10 * 10 + n % 10 > 2 ^ 64 - 1) := by omega
      rw [if_neg c1, if_neg c2]
      congr 1
      omega

theorem itoaNat_ne_nil (n : Nat) : itoaNat n ≠ [] :=
  itoaAux_ne_nil _ _ _ (Or.inr (Nat.succ_pos n))

theorem itoaNat_digits (n : Nat) : ∀ b ∈ itoaNat n, ∃ d, d < 10 ∧ b = 48 + d.toUInt8 := by
  intro b hb
  rcases itoaAux_digits _ _ _ b hb with h | h
  · simp at h
  · exact h

theorem Itoa_natCast (n : Nat) : Itoa (n : Int) = itoaNat n := by
  simp [Itoa]

theorem CR_not_mem_Itoa (n : Nat) : CR ∉ Itoa (n : Int) := by
  rw [Itoa_natCast]
  intro h
  obtain ⟨d, hd, e⟩ := itoaNat_digits n CR h
  exact (digit_byte d hd).2.2.2.1 e.symm

theorem ParseInt_Itoa (n : Nat) (h : n < 2 ^ 63) : ParseInt (Itoa (n : Int)) = .ok (n : Int) := by
  rw [Itoa_natCast]
  have hp : parseUintLoop (itoaNat n) 0 = .ok n := by
    have := parse_itoaAux (n + 1) n [] (Nat.lt_succ_self n) (by omega)
    simpa [itoaNat, parseUintLoop] using this
  have hne := itoaNat_ne_nil n
  have hd := itoaNat_digits n
  cases hs : itoaNat n with
  | nil => exact absurd hs hne
  | cons c rest =>
    rw [hs] at hp hd
    obtain ⟨d, hd10, e⟩ := hd c (List.mem_cons_self _ _)
    obtain ⟨-, -, -, -, h43, h45⟩ := digit_byte d hd10
    rw [← e] at h43 h45
    have hlt : ¬ (n ≥ 2 ^ 63) := by omega
    simp [ParseInt, ParseUint, h43, h45, hp, hlt]
    omega

/-! ## Reading what is in the buffer -/

theorem ReadByte_cons (b : UInt8) (bs src : Bytes) :
    Reader.ReadByte ⟨b :: bs, src⟩ = some (b, ⟨bs, src⟩) := rfl

/-- On an empty buffer `ReadByte` first moves the next 4096 bytes of the file
into the buffer. -/
theorem ReadByte_fill (d : Bytes) :
    Reader.ReadByte ⟨[], d⟩ = Reader.ReadByte ⟨d.take defaultBufSize, d.drop defaultBufSize⟩ := by
  cases d with
  | nil => rfl
  | cons b bs => rfl

theorem no_break (line : Bytes) (b : UInt8) (h : CR ∉ line) :
    ¬ (2 ≤ (line ++ [b]).length ∧ (line ++ [b])[(line ++ [b]).length - 2]? = some CR) := by
  rintro ⟨h2, hg⟩
  simp only [List.length_append, List.length_singleton] at h2 hg
  have hlt : line.length + 1 - 2 < line.length := by omega
  rw [List.getElem?_append_left hlt] at hg
  exact h (List.getElem?_mem hg)

theorem readLineLoop_buf (ds : Bytes) (x : UInt8) (rest src : Bytes) (hds : CR ∉ ds) :
    ∀ (fuel : Nat) (line : Bytes) (n : Nat), CR ∉ line → ds.length + 2 ≤ fuel →
      readLineLoop fuel ⟨ds ++ CR :: x :: rest, src⟩ line n
        = .ok (line ++ ds, n + ds.length + 2) ⟨rest, src⟩ := by
  induction ds with
  | nil =>
    intro fuel line n hline hfuel
    obtain ⟨f, rfl⟩ : ∃ f, fuel = f + 2 := ⟨fuel - 2, by simp at hfuel; omega⟩
    simp only [List.nil_append, readLineLoop, ReadByte_cons, if_neg (no_break line CR hline)]
    have hb : 2 ≤ (line ++ [CR] ++ [x]).length ∧
        (line ++ [CR] ++ [x])[(line ++ [CR] ++ [x]).length - 2]? = some CR := by
      constructor
      · simp
      · have e : (line ++ [CR] ++ [x]).length - 2 = line.length := by simp
        rw [e, List.append_assoc, List.getElem?_append_right (le_refl _)]
        simp
    rw [if_pos hb]
    simp
  | cons d ds ih =>
    intro fuel line n hline hfuel
    obtain ⟨f, rfl⟩ : ∃ f, fuel = f + 1 := ⟨fuel - 1, by simp at hfuel; omega⟩
    have hd : CR ∉ ds := fun h => hds (List.mem_cons_of_mem _ h)
    have hne : d ≠ CR := fun h => hds (h ▸ List.mem_cons_self _ _)
    simp only [List.cons_append, readLineLoop, ReadByte_cons, if_neg (no_break line d hline)]
    have hline' : CR ∉ line ++ [d] := by
      simp only [List.mem_append, List.mem_singleton, not_or]
      exact ⟨hline, fun h => hne h.symm⟩
    rw [ih hd f (line ++ [d]) (n + 1) hline' (by simp at hfuel ⊢; omega)]
    simp only [List.append_assoc, List.singleton_append, List.length_cons]
    congr 2
    omega

theorem readLine_buf (ds : Bytes) (x : UInt8) (rest src : Bytes) (hds : CR ∉ ds) :
    readLine ⟨ds ++ CR :: x :: rest, src⟩ = .ok (ds, ds.length + 2) ⟨rest, src⟩ := by
  have := readLineLoop_buf ds x rest src hds
    (Reader.remaining ⟨ds ++ CR :: x :: rest, src⟩ + 1) [] 0 (by simp)
    (by simp [Reader.remaining]; omega)
  simpa [readLine] using this

theorem readInteger_buf (n : Nat) (hn : n < 2 ^ 63) (rest src : Bytes) :
    readInteger ⟨Itoa (n : Int) ++ CR :: LF :: rest, src⟩
      = .ok ((n : Int), (Itoa (n : Int)).length + 2) ⟨rest, src⟩ := by
  simp only [readInteger, readLine_buf _ LF rest src (CR_not_mem_Itoa n), ParseInt_Itoa n hn]

theorem Read_buf (s tail src : Bytes) :
    Reader.Read ⟨s ++ tail, src⟩ s.length = (s, ⟨tail, src⟩) := by
  cases s with
  | nil => simp [Reader.Read]
  | cons b bs =>
    have h1 : List.take (bs.length + 1) (b :: (bs ++ tail)) = b :: bs := by
      simp
    have h2 : List.drop (bs.length + 1) (b :: (bs ++ tail)) = tail := by
      simp
    simp only [Reader.Read, List.length_cons, List.cons_append, Nat.succ_ne_zero, if_false, h1, h2]

theorem make_ok (n : Nat) (hn : n < 2 ^ 48) : ¬ ((n : Int) < 0 ∨ maxAlloc < (n : Int)) := by
  simp only [maxAlloc]
  omega

theorem readBulk_buf (s rest src : Bytes) (hs : s.length < 2 ^ 48) :
    readBulk ⟨Itoa (s.length : Int) ++ CR :: LF :: (s ++ CR :: LF :: rest), src⟩
      = .ok (Value.mk "bulk" [] 0 s []) ⟨rest, src⟩ := by
  have hl := readLine_buf [] LF rest src (by simp)
  simp only [List.nil_append] at hl
  simp only [readBulk, readInteger_buf s.length (by omega), if_neg (make_ok _ hs),
    Int.toNat_ofNat, Read_buf, hl]
  simp

theorem Marshal_pos : ∀ (v : Value), isReq v = true → 0 < (Marshal v).length
  | .mk typ str num bulk array => by
    intro hreq
    simp only [isReq, Bool.or_eq_true, Bool.and_eq_true, beq_iff_eq, List.isEmpty_iff] at hreq
    rcases hreq with ⟨⟨⟨rfl, rfl⟩, rfl⟩, rfl⟩ | ⟨⟨⟨⟨rfl, rfl⟩, rfl⟩, rfl⟩, hall⟩ <;> simp [Marshal, marshalBulk, Value.bulk]

theorem length_le_marshalElems : ∀ (xs : List Value), allReq xs = true →
    xs.length ≤ (marshalElems xs).length
  | [] => by intro _; simp
  | x :: xs => by
    intro hall
    simp only [allReq, Bool.and_eq_true] at hall
    have h1 := Marshal_pos x hall.1
    have h2 := length_le_marshalElems xs hall.2
    simp only [marshalElems, List.length_append, List.length_cons]
    omega

mutual
theorem ReadFuel_buf : ∀ (v : Value), isReq v = true → ∀ (fuel : Nat) (rest src : Bytes),
    (Marshal v).length < fuel → (Marshal v).length < 2 ^ 48 →
    ReadFuel fuel ⟨Marshal v ++ rest, src⟩ = .ok v ⟨rest, src⟩
  | .mk typ str num bulk array => by
    intro hreq fuel rest src hfuel hsize
    obtain ⟨f, rfl⟩ : ∃ f, fuel = f + 1 := ⟨fuel - 1, by omega⟩
    simp only [isReq, Bool.or_eq_true, Bool.and_eq_true, beq_iff_eq, List.isEmpty_iff] at hreq
    rcases hreq with ⟨⟨⟨rfl, rfl⟩, rfl⟩, rfl⟩ | ⟨⟨⟨⟨rfl, rfl⟩, rfl⟩, rfl⟩, hall⟩
    · have hm : Marshal (.mk "bulk" [] 0 bulk []) =
          BULK :: (Itoa (bulk.length : Int) ++ CR :: LF :: (bulk ++ CR :: LF :: [])) := by
        simp [Marshal, marshalBulk, Value.bulk]
      rw [hm] at hfuel hsize ⊢
      have hb : bulk.length < 2 ^ 48 := by
        simp only [List.length_cons, List.length_append] at hsize
        omega
      have hne : BULK ≠ ARRAY := by decide
      simp only [List.cons_append, List.append_assoc, ReadFuel, ReadByte_cons, if_neg hne, if_true,
        List.nil_append]
      exact readBulk_buf bulk rest src hb
    · have hm : Marshal (.mk "array" [] 0 [] array) =
          ARRAY :: (Itoa (array.length : Int) ++ CR :: LF :: marshalElems array) := by
        simp [Marshal, marshalBulk, Value.bulk]
      rw [hm] at hfuel hsize ⊢
      simp only [List.length_cons, List.length_append] at hfuel hsize
      have hlen : array.length ≤ (marshalElems array).length := length_le_marshalElems array hall
      simp only [List.cons_append, List.append_assoc, ReadFuel, ReadByte_cons, if_true, readArray,
        readInteger_buf array.length (by omega), Int.toNat_ofNat]
      have := readArrayLoop_buf array hall f rest src [] (by omega) (by omega)
      simpa using this
theorem readArrayLoop_buf : ∀ (xs : List Value), allReq xs = true →
    ∀ (fuel : Nat) (rest src : Bytes) (acc : List Value),
    (marshalElems xs).length < fuel → (marshalElems xs).length < 2 ^ 48 →
    readArrayLoop (ReadFuel fuel) xs.length ⟨marshalElems xs ++ rest, src⟩ acc
      = .ok (Value.mk "array" [] 0 [] (acc ++ xs)) ⟨rest, src⟩
  | [] => by
    intro _ fuel rest src acc _ _
    simp [readArrayLoop, marshalElems]
  | x :: xs => by
    intro hall fuel rest src acc hfuel hsize
    simp only [allReq, Bool.and_eq_true] at hall
    simp only [marshalElems, List.length_append] at hfuel hsize
    simp only [List.length_cons, readArrayLoop, marshalElems, List.append_assoc]
    rw [ReadFuel_buf x hall.1 fuel (marshalElems xs ++ rest) src (by omega) (by omega)]
    simp only
    rw [readArrayLoop_buf xs hall.2 fuel rest src (acc ++ [x]) (by omega) (by omega)]
    simp
end

/-! ## Reading a whole encoding that fits the buffer -/

theorem ReadFuel_fill (fuel : Nat) (d : Bytes) :
    ReadFuel fuel ⟨[], d⟩ = ReadFuel fuel ⟨d.take defaultBufSize, d.drop defaultBufSize⟩ := by
  cases d with
  | nil => rfl
  | cons b bs =>
    cases fuel with
    | zero => rfl
    | succ f => rfl

theorem readLine_fill (d : Bytes) :
    readLine ⟨[], d⟩ = readLine ⟨d.take defaultBufSize, d.drop defaultBufSize⟩ := by
  cases d with
  | nil => rfl
  | cons b bs =>
    have hrem : Reader.remaining ⟨(b :: bs).take defaultBufSize, (b :: bs).drop defaultBufSize⟩
        = Reader.remaining ⟨[], b :: bs⟩ := by
      simp only [Reader.remaining, List.length_take, List.length_drop, List.length_nil]
      omega
    simp only [readLine, hrem]
    rfl

theorem Resp_Read_split (x y : Bytes) (hx : x.length = defaultBufSize ∨ y = [])
    (hx' : x.length ≤ defaultBufSize) :
    Resp.Read (NewResp (x ++ y)) = ReadFuel ((x ++ y).length + 1) ⟨x, y⟩ := by
  have ht : (x ++ y).take defaultBufSize = x := by
    rcases hx with h | h
    · rw [← h, List.take_left']; rfl
    · subst h
      simp only [List.append_nil]
      exact List.take_of_length_le hx'
  have hd : (x ++ y).drop defaultBufSize = y := by
    rcases hx with h | h
    · rw [← h, List.drop_left']; rfl
    · subst h
      simp only [List.append_nil]
      exact List.drop_of_length_le hx'
  simp only [Resp.Read, NewResp, Reader.remaining, List.length_nil, Nat.zero_add]
  rw [ReadFuel_fill, ht, hd]

/-- C1, as amended. For every value built from the Array and BulkString variants
only, nested to any depth, whose encoding is at most 4096 bytes long (one fill
of the buffer of the reader), `Resp.Read` on the bytes `Marshal` produced
returns the value itself with a `nil` error, all bytes read. -/
theorem read_marshal_within_buffer (v : Value) (hreq : isReq v = true)
    (hsize : (Marshal v).length ≤ defaultBufSize) :
    Resp.Read (NewResp (Marshal v)) = Res.ok v ⟨[], []⟩ := by
  have h := Resp_Read_split (Marshal v) [] (Or.inr rfl) hsize
  simp only [List.append_nil] at h
  rw [h]
  have := ReadFuel_buf v hreq ((Marshal v).length + 1) [] [] (Nat.lt_succ_self _)
    (by simp only [defaultBufSize] at hsize; omega)
  simpa using this

theorem read_marshal_within_buffer_witness :
    isReq (Value.arrayOf [Value.bulkString (ascii "SET"), Value.bulkString (ascii "k"),
      Value.arrayOf [], Value.bulkString [13, 10, 0, 255]]) = true ∧
    (Marshal (Value.arrayOf [Value.bulkString (ascii "SET"), Value.bulkString (ascii "k"),
      Value.arrayOf [], Value.bulkString [13, 10, 0, 255]])).length ≤ defaultBufSize ∧
    Resp.Read (NewResp (Marshal (Value.arrayOf [Value.bulkString (ascii "SET"),
      Value.bulkString (ascii "k"), Value.arrayOf [], Value.bulkString [13, 10, 0, 255]])))
    = Res.ok (Value.arrayOf [Value.bulkString (ascii "SET"), Value.bulkString (ascii "k"),
      Value.arrayOf [], Value.bulkString [13, 10, 0, 255]]) ⟨[], []⟩ :=
  ⟨by decide, by decide, read_marshal_within_buffer _ (by decide) (by decide)⟩

/-! ## A bulk payload that crosses the end of the buffer -/

theorem Read_short (p src : Bytes) (n : Nat) (hp : p ≠ []) (hn : p.length ≤ n) :
    Reader.Read ⟨p, src⟩ n = (p, ⟨[], src⟩) := by
  cases p with
  | nil => exact absurd rfl hp
  | cons b bs =>
    have h0 : n ≠ 0 := by
      simp only [List.length_cons] at hn
      omega
    simp only [Reader.Read, if_neg h0, List.take_of_length_le hn, List.drop_of_length_le hn]

/-- `readBulk` when only the part `p` of the payload is in the buffer and the
file goes on with `q`, CR and one more byte: `Read` copies `p` alone, the
missing bytes stay zero, and `readLine` then takes `q` for the line end. -/
theorem readBulk_straddle (n : Nat) (p q : Bytes) (x : UInt8) (hn : n < 2 ^ 48) (hp : p ≠ [])
    (hpn : p.length ≤ n) (hq : CR ∉ q) (hqB : q.length + 2 ≤ defaultBufSize) :
    readBulk ⟨Itoa (n : Int) ++ CR :: LF :: p, q ++ [CR, x]⟩
      = .ok (Value.mk "bulk" [] 0 (p ++ List.replicate (n - p.length) 0) []) ⟨[], []⟩ := by
  have hlen : (q ++ [CR, x]).length ≤ defaultBufSize := by simpa using hqB
  have hl : readLine ⟨[], q ++ [CR, x]⟩ = .ok (q, q.length + 2) ⟨[], []⟩ := by
    rw [readLine_fill, List.take_of_length_le hlen, List.drop_of_length_le hlen]
    exact readLine_buf q x [] [] hq
  simp only [readBulk, readInteger_buf n (by omega), if_neg (make_ok _ hn), Int.toNat_ofNat,
    Read_short p _ n hp hpn, hl]

theorem readArrayLoop_skip : ∀ (xs : List Value), allReq xs = true →
    ∀ (fuel k : Nat) (rest src : Bytes) (acc : List Value),
    (marshalElems xs).length < fuel → (marshalElems xs).length < 2 ^ 48 →
    readArrayLoop (ReadFuel fuel) (xs.length + k) ⟨marshalElems xs ++ rest, src⟩ acc
      = readArrayLoop (ReadFuel fuel) k ⟨rest, src⟩ (acc ++ xs)
  | [] => by
    intro _ fuel k rest src acc _ _
    simp [marshalElems]
  | x :: xs => by
    intro hall fuel k rest src acc hfuel hsize
    simp only [allReq, Bool.and_eq_true] at hall
    simp only [marshalElems, List.length_append] at hfuel hsize
    have e : (x :: xs).length + k = (xs.length + k) + 1 := by simp; omega
    rw [e]
    simp only [readArrayLoop, marshalElems, List.append_assoc]
    rw [ReadFuel_buf x hall.1 fuel (marshalElems xs ++ rest) src (by omega) (by omega)]
    simp only
    rw [readArrayLoop_skip xs hall.2 fuel k rest src (acc ++ [x]) (by omega) (by omega)]
    simp

/-- A bare BulkString whose payload `p ++ q` crosses the end of the first fill
of the buffer after `p`: `Resp.Read` returns `p` followed by zero bytes. -/
theorem Read_bulk_straddle (p q : Bytes) (hp : p ≠ []) (hq : CR ∉ q)
    (hqB : q.length + 2 ≤ defaultBufSize)
    (hfill : (BULK :: (Itoa ((p ++ q).length : Int) ++ CR :: LF :: p)).length = defaultBufSize) :
    Resp.Read (NewResp (Marshal (Value.bulkString (p ++ q))))
      = .ok (Value.bulkString (p ++ List.replicate q.length 0)) ⟨[], []⟩ := by
  have hm : Marshal (Value.bulkString (p ++ q)) =
      (BULK :: (Itoa ((p ++ q).length : Int) ++ CR :: LF :: p)) ++ (q ++ [CR, LF]) := by
    simp [Marshal, marshalBulk, Value.bulk, Value.bulkString]
  have hsz : (p ++ q).length < 2 ^ 48 := by
    simp only [List.length_cons, List.length_append, defaultBufSize] at hfill hqB ⊢
    omega
  rw [hm, Resp_Read_split _ _ (Or.inl hfill) (le_of_eq hfill)]
  have hne : BULK ≠ ARRAY := by decide
  rw [ReadFuel]
  simp only [ReadByte_cons, if_neg hne, if_true]
  rw [readBulk_straddle (p ++ q).length p q LF hsz hp (by simp) hq hqB]
  simp [Value.bulkString]

theorem ReadFuel_array_straddle (xs : List Value) (hall : allReq xs = true) (n : Nat)
    (p q : Bytes) (x : UInt8) (hn : n < 2 ^ 48) (hxs : xs.length + 1 < 2 ^ 63)
    (hms : (marshalElems xs).length < 2 ^ 48) (hp : p ≠ []) (hpn : p.length ≤ n)
    (hq : CR ∉ q) (hqB : q.length + 2 ≤ defaultBufSize) (L : Nat)
    (hL : (marshalElems xs).length + 1 < L) :
    ReadFuel (L + 1) ⟨ARRAY :: (Itoa ((xs.length + 1 : Nat) : Int) ++ CR :: LF ::
      (marshalElems xs ++ BULK :: (Itoa (n : Int) ++ CR :: LF :: p))), q ++ [CR, x]⟩
      = .ok (Value.mk "array" [] 0 []
          (xs ++ [Value.mk "bulk" [] 0 (p ++ List.replicate (n - p.length) 0) []])) ⟨[], []⟩ := by
  obtain ⟨f, rfl⟩ : ∃ f, L = f + 1 := ⟨L - 1, by omega⟩
  have hne : BULK ≠ ARRAY := by decide
  have hlast : ReadFuel (f + 1) ⟨BULK :: (Itoa (n : Int) ++ CR :: LF :: p), q ++ [CR, x]⟩
      = .ok (Value.mk "bulk" [] 0 (p ++ List.replicate (n - p.length) 0) []) ⟨[], []⟩ := by
    rw [ReadFuel]
    simp only [ReadByte_cons, if_neg hne, if_true]
    exact readBulk_straddle n p q x hn hp hpn hq hqB
  rw [ReadFuel]
  simp only [ReadByte_cons, if_true, readArray, readInteger_buf (xs.length + 1) hxs,
    Int.toNat_ofNat]
  rw [readArrayLoop_skip xs hall (f + 1) 1 _ _ [] (by omega) hms]
  simp only [readArrayLoop, hlast, List.nil_append]

/-- An Array whose last element is a BulkString with payload `p ++ q`, the first
fill of the buffer ending after `p`: `Resp.Read` returns the Array with `p`
followed by zero bytes in the place of `p ++ q`. -/
theorem Read_array_straddle (xs : List Value) (hall : allReq xs = true) (p q : Bytes)
    (hp : p ≠ []) (hq : CR ∉ q) (hqB : q.length + 2 ≤ defaultBufSize)
    (hfill : (ARRAY :: (Itoa ((xs.length + 1 : Nat) : Int) ++ CR :: LF :: (marshalElems xs ++
      BULK :: (Itoa ((p ++ q).length : Int) ++ CR :: LF :: p)))).length = defaultBufSize) :
    Resp.Read (NewResp (Marshal (Value.arrayOf (xs ++ [Value.bulkString (p ++ q)]))))
      = .ok (Value.arrayOf (xs ++ [Value.bulkString (p ++ List.replicate q.length 0)]))
          ⟨[], []⟩ := by
  have hme : ∀ (ys : List Value) (y : Value),
      marshalElems (ys ++ [y]) = marshalElems ys ++ Marshal y := by
    intro ys y
    induction ys with
    | nil => simp [marshalElems]
    | cons z zs ih => simp [marshalElems, ih]
  have hm : Marshal (Value.arrayOf (xs ++ [Value.bulkString (p ++ q)])) =
      (ARRAY :: (Itoa ((xs.length + 1 : Nat) : Int) ++ CR :: LF :: (marshalElems xs ++
        BULK :: (Itoa ((p ++ q).length : Int) ++ CR :: LF :: p)))) ++ (q ++ [CR, LF]) := by
    simp [Marshal, marshalBulk, Value.bulk, Value.arrayOf, Value.bulkString, hme]
  have hxs := length_le_marshalElems xs hall
  rw [hm, Resp_Read_split _ (q ++ [CR, LF]) (Or.inl hfill) (le_of_eq hfill)]
  have hfill' := hfill
  simp only [List.length_cons, List.length_append, defaultBufSize] at hfill' hqB
  rw [ReadFuel_array_straddle xs hall (p ++ q).length p q LF
    (by simp only [List.length_append]; omega) (by omega) (by omega) hp (by simp) hq
    (by simp only [defaultBufSize]; omega) _
    (by simp only [List.length_cons, List.length_append]; omega)]
  simp [Value.bulkString, Value.arrayOf]

theorem replicate_ne_nil (a : UInt8) (m : Nat) (hm : 0 < m) : List.replicate m a ≠ [] := by
  intro h
  have := congrArg List.length h
  rw [List.length_replicate, List.length_nil] at this
  omega

/-- A BulkString of `m + k` equal bytes `a`, the first fill of the buffer ending
after `m` of them. -/
theorem Read_bulk_replicate (a : UInt8) (m k : Nat) (ha : a ≠ CR) (hm : 0 < m)
    (hk : k + 2 ≤ defaultBufSize)
    (hfill : (Itoa ((m + k : Nat) : Int)).length + m + 3 = defaultBufSize) :
    Resp.Read (NewResp (Marshal (Value.bulkString (List.replicate (m + k) a))))
      = Res.ok (Value.bulkString (List.replicate m a ++ List.replicate k 0)) ⟨[], []⟩ := by
  have hlen : (List.replicate m a ++ List.replicate k a).length = m + k := by
    rw [List.length_append, List.length_replicate, List.length_replicate]
  have h := Read_bulk_straddle (List.replicate m a) (List.replicate k a)
    (replicate_ne_nil a m hm) (fun h => ha (List.eq_of_mem_replicate h).symm)
    (by rw [List.length_replicate]; exact hk)
    (by
      rw [hlen, List.length_cons, List.length_append, List.length_cons, List.length_cons,
        List.length_replicate]
      omega)
  rw [List.length_replicate, ← List.replicate_add] at h
  exact h

/-- An Array of requests `xs` and then a BulkString of `m + k` equal bytes `a`,
the first fill of the buffer ending after `m` of them. -/
theorem Read_array_replicate (xs : List Value) (hall : allReq xs = true) (a : UInt8)
    (m k : Nat) (ha : a ≠ CR) (hm : 0 < m) (hk : k + 2 ≤ defaultBufSize)
    (hfill : (Itoa ((xs.length + 1 : Nat) : Int)).length + (marshalElems xs).length
      + (Itoa ((m + k : Nat) : Int)).length + m + 6 = defaultBufSize) :
    Resp.Read (NewResp (Marshal (Value.arrayOf (xs ++ [Value.bulkString (List.replicate (m + k) a)]))))
      = Res.ok (Value.arrayOf (xs ++ [Value.bulkString (List.replicate m a ++ List.replicate k 0)]))
          ⟨[], []⟩ := by
  have hlen : (List.replicate m a ++ List.replicate k a).length = m + k := by
    rw [List.length_append, List.length_replicate, List.length_replicate]
  have h := Read_array_straddle xs hall (List.replicate m a) (List.replicate k a)
    (replicate_ne_nil a m hm) (fun h => ha (List.eq_of_mem_replicate h).symm)
    (by rw [List.length_replicate]; exact hk)
    (by
      rw [hlen]
      simp only [List.length_cons, List.length_append, List.length_replicate]
      omega)
  rw [List.length_replicate, ← List.replicate_add] at h
  exact h

theorem aofReadLoop_single (content d : Bytes) (v : Value) (fuel : Nat) (calls : List Value)
    (h : Resp.Read (NewResp d) = Res.ok v ⟨[], []⟩) :
    aofReadLoop content (fuel + 2) (NewResp d) calls
      = AofRes.ret (calls ++ [v]) none ⟨⟨content, content.length⟩⟩ := by
  have he : Resp.Read ⟨[], []⟩ = Res.fail Value.zero Err.EOF ⟨[], []⟩ := rfl
  simp only [aofReadLoop, h, he, if_true, List.length_nil, Nat.sub_zero]

theorem Aof_Write_empty (v : Value) :
    Aof.Write (NewAof []) v = ⟨⟨Marshal v, (Marshal v).length⟩⟩ := by
  simp [Aof.Write, NewAof, File.Write]

theorem Aof_Read_single (v w : Value) (hpos : 0 < (Marshal v).length)
    (h : Resp.Read (NewResp (Marshal v)) = Res.ok w ⟨[], []⟩) :
    Aof.Read (Aof.Write (NewAof []) v)
      = AofRes.ret [w] none ⟨⟨Marshal v, (Marshal v).length⟩⟩ := by
  rw [Aof_Write_empty]
  obtain ⟨f, hf⟩ : ∃ f, (Marshal v).length = f + 1 := ⟨(Marshal v).length - 1, by omega⟩
  simp only [Aof.Read]
  rw [hf]
  have := aofReadLoop_single (Marshal v) (Marshal v) w f [] h
  rw [hf] at this
  simpa using this

theorem corrupted_ne (a : UInt8) (m k : Nat) (ha : a ≠ 0) (hk : 0 < k) :
    List.replicate m a ++ List.replicate k 0 ≠ List.replicate (m + k) a := by
  rw [List.replicate_add]
  intro h
  have h' := List.append_cancel_left h
  have h0 : (0 : UInt8) ∈ List.replicate k 0 := List.mem_replicate.mpr ⟨by omega, rfl⟩
  rw [h'] at h0
  exact ha (List.eq_of_mem_replicate h0).symm


theorem bulkString_inj {s t : Bytes} (h : Value.bulkString s = Value.bulkString t) : s = t := by
  simpa [Value.bulkString] using h

/-- C1 fails on Null and on a long BulkString. `Marshal` writes Null as `$-1\r\n`,
and `Resp.Read` on these bytes panics in `make([]byte, -1)` instead of returning
Null. Of a BulkString of 4096 bytes `a` only 4089 are in the buffer when
`readBulk` calls `Read`, and the value returned with a `nil` error ends in 7
zero bytes. -/
theorem read_marshal_fails :
    (Marshal Value.null = ascii "$-1\r\n" ∧
      Resp.Read (NewResp (Marshal Value.null)) = Res.panics ∧
      ¬ ∃ r, Resp.Read (NewResp (Marshal Value.null)) = Res.ok Value.null r) ∧
    (isReq (Value.bulkString (List.replicate 4096 97)) = true ∧
      Resp.Read (NewResp (Marshal (Value.bulkString (List.replicate 4096 97))))
        = Res.ok (Value.bulkString (List.replicate 4089 97 ++ List.replicate 7 0)) ⟨[], []⟩ ∧
      Value.bulkString (List.replicate 4089 97 ++ List.replicate 7 0)
        ≠ Value.bulkString (List.replicate 4096 97)) := by
  have h : Resp.Read (NewResp (Marshal Value.null)) = Res.panics := by rfl
  refine ⟨⟨by rfl, h, ?_⟩, ⟨by rfl, ?_, ?_⟩⟩
  · rintro ⟨r, hr⟩
    rw [h] at hr
    cases hr
  · exact Read_bulk_replicate 97 4089 7 (by decide) (by decide) (by decide) (by decide)
  · intro e
    exact corrupted_ne 97 4089 7 (by decide) (by decide) (bulkString_inj e)

/-! ## A log that fits the buffer -/

theorem Resp_Read_buf (v : Value) (hreq : isReq v = true) (rest : Bytes)
    (hsize : (Marshal v).length < 2 ^ 48) :
    Resp.Read ⟨Marshal v ++ rest, []⟩ = Res.ok v ⟨rest, []⟩ := by
  simp only [Resp.Read, Reader.remaining]
  exact ReadFuel_buf v hreq _ rest [] (by simp only [List.length_append]; omega) hsize

theorem aofReadLoop_buf (content : Bytes) : ∀ (vs : List Value), allReq vs = true →
    ∀ (fuel : Nat) (calls : List Value), vs.length < fuel → (marshalElems vs).length < 2 ^ 48 →
    aofReadLoop content fuel ⟨marshalElems vs, []⟩ calls
      = AofRes.ret (calls ++ vs) none ⟨⟨content, content.length⟩⟩
  | [] => by
    intro _ fuel calls hfuel _
    obtain ⟨f, rfl⟩ : ∃ f, fuel = f + 1 := ⟨fuel - 1, by simp only [List.length_nil] at hfuel; omega⟩
    have he : Resp.Read ⟨[], []⟩ = Res.fail Value.zero Err.EOF ⟨[], []⟩ := rfl
    simp only [aofReadLoop, marshalElems, he, if_true, List.length_nil, Nat.sub_zero,
      List.append_nil]
  | v :: vs => by
    intro hall fuel calls hfuel hsize
    obtain ⟨f, rfl⟩ : ∃ f, fuel = f + 1 := ⟨fuel - 1, by omega⟩
    simp only [allReq, Bool.and_eq_true] at hall
    simp only [marshalElems, List.length_append] at hsize
    simp only [List.length_cons] at hfuel
    simp only [aofReadLoop, marshalElems, Resp_Read_buf v hall.1 (marshalElems vs) (by omega)]
    rw [aofReadLoop_buf content vs hall.2 f (calls ++ [v]) (by omega) (by omega)]
    simp

theorem Aof_Write_log : ∀ (vs : List Value) (c : Bytes),
    vs.foldl Aof.Write ⟨⟨c, c.length⟩⟩
      = ⟨⟨c ++ marshalElems vs, (c ++ marshalElems vs).length⟩⟩
  | [], c => by simp [marshalElems]
  | v :: vs, c => by
    have h1 : Aof.Write ⟨⟨c, c.length⟩⟩ v = ⟨⟨c ++ Marshal v, (c ++ Marshal v).length⟩⟩ := by
      simp [Aof.Write, File.Write]
    rw [List.foldl_cons, h1, Aof_Write_log vs (c ++ Marshal v)]
    simp [marshalElems]

/-- A log of requests written by successive `Aof.Write` calls to an empty file,
4096 bytes at most in all, is read back by `Aof.Read` as these requests in
order, with no error. -/
theorem Aof_Read_log_within_buffer (vs : List Value) (hall : allReq vs = true)
    (hsize : (marshalElems vs).length ≤ defaultBufSize) :
    Aof.Read (vs.foldl Aof.Write (NewAof []))
      = AofRes.ret vs none ⟨⟨marshalElems vs, (marshalElems vs).length⟩⟩ := by
  have hw := Aof_Write_log vs []
  simp only [List.nil_append, List.length_nil] at hw
  have hlen := length_le_marshalElems vs hall
  have hB : (marshalElems vs).length < 2 ^ 48 := by
    simp only [defaultBufSize] at hsize
    omega
  have hfirst : Resp.Read (NewResp (marshalElems vs)) = Resp.Read ⟨marshalElems vs, []⟩ := by
    have := Resp_Read_split (marshalElems vs) [] (Or.inr rfl) hsize
    simp only [List.append_nil] at this
    rw [this]
    simp [Resp.Read, Reader.remaining]
  have hloop : aofReadLoop (marshalElems vs) ((marshalElems vs).length + 1)
      (NewResp (marshalElems vs)) []
      = aofReadLoop (marshalElems vs) ((marshalElems vs).length + 1) ⟨marshalElems vs, []⟩ [] := by
    simp only [aofReadLoop, hfirst]
  simp only [NewAof, hw, Aof.Read, hloop]
  rw [aofReadLoop_buf (marshalElems vs) vs hall _ [] (by omega) hB]
  simp

/-- C2 fails on a log that holds SET k v with a value of 4096 bytes `a`, written
by `Aof.Write` to an empty file: the file holds `Marshal` of the request, and
`Aof.Read` returns no error after calling `fn` once, on a request whose value
is 4069 bytes `a` followed by 27 zero bytes, which is not the request written. -/
theorem aof_read_long_value :
    isReq (Value.arrayOf [Value.bulkString (ascii "SET"), Value.bulkString (ascii "k"),
      Value.bulkString (List.replicate 4096 97)]) = true ∧
    (Aof.Write (NewAof []) (Value.arrayOf [Value.bulkString (ascii "SET"),
      Value.bulkString (ascii "k"), Value.bulkString (List.replicate 4096 97)])).file.content
      = Marshal (Value.arrayOf [Value.bulkString (ascii "SET"), Value.bulkString (ascii "k"),
          Value.bulkString (List.replicate 4096 97)]) ∧
    (∃ aof, Aof.Read (Aof.Write (NewAof []) (Value.arrayOf [Value.bulkString (ascii "SET"),
      Value.bulkString (ascii "k"), Value.bulkString (List.replicate 4096 97)]))
      = AofRes.ret [Value.arrayOf [Value.bulkString (ascii "SET"), Value.bulkString (ascii "k"),
          Value.bulkString (List.replicate 4069 97 ++ List.replicate 27 0)]] none aof) ∧
    Value.arrayOf [Value.bulkString (ascii "SET"), Value.bulkString (ascii "k"),
        Value.bulkString (List.replicate 4069 97 ++ List.replicate 27 0)]
      ≠ Value.arrayOf [Value.bulkString (ascii "SET"), Value.bulkString (ascii "k"),
        Value.bulkString (List.replicate 4096 97)] := by
  have hreq : isReq (Value.arrayOf [Value.bulkString (ascii "SET"), Value.bulkString (ascii "k"),
      Value.bulkString (List.replicate 4096 97)]) = true := by rfl
  have hread : Resp.Read (NewResp (Marshal (Value.arrayOf [Value.bulkString (ascii "SET"),
      Value.bulkString (ascii "k"), Value.bulkString (List.replicate 4096 97)])))
      = Res.ok (Value.arrayOf [Value.bulkString (ascii "SET"), Value.bulkString (ascii "k"),
          Value.bulkString (List.replicate 4069 97 ++ List.replicate 27 0)]) ⟨[], []⟩ :=
    Read_array_replicate [Value.bulkString (ascii "SET"), Value.bulkString (ascii "k")]
      (by decide) 97 4069 27 (by decide) (by decide) (by decide) (by decide)
  refine ⟨hreq, ?_, ⟨_, Aof_Read_single _ _ (Marshal_pos _ hreq) hread⟩, ?_⟩
  · rw [Aof_Write_empty]
  · intro h
    simp only [Value.arrayOf, Value.bulkString, Value.mk.injEq, List.cons.injEq, true_and,
      and_true] at h
    exact corrupted_ne 97 4069 27 (by decide) (by decide) h

/-! ## An unknown type byte -/

/-- C10, as amended. When the next byte of the input is neither `*` nor `$`,
`Resp.Read` takes that byte alone and returns the zero `Value` with a `nil`
error. -/
theorem read_unknown_type (r r1 : Reader) (t : UInt8) (h : r.ReadByte = some (t, r1))
    (ha : t ≠ ARRAY) (hb : t ≠ BULK) : Resp.Read r = Res.ok Value.zero r1 := by
  simp only [Resp.Read, ReadFuel, h, if_neg ha, if_neg hb]

theorem read_unknown_type_witness :
    (NewResp (ascii "+OK\r\n")).ReadByte = some (43, ⟨ascii "OK\r\n", []⟩) ∧
    (43 : UInt8) ≠ ARRAY ∧ (43 : UInt8) ≠ BULK ∧
    Resp.Read (NewResp (ascii "+OK\r\n")) = Res.ok Value.zero ⟨ascii "OK\r\n", []⟩ :=
  ⟨rfl, by decide, by decide,
   read_unknown_type (NewResp (ascii "+OK\r\n")) ⟨ascii "OK\r\n", []⟩ 43 rfl (by decide)
     (by decide)⟩

/-- C10 fails on the input `+OK\r\n`, whose first byte `+` is neither `*` nor
`$`: `Resp.Read` returns the zero `Value` with a `nil` error, not a decode
error. -/
theorem read_unknown_type_no_error :
    STRING ≠ ARRAY ∧ STRING ≠ BULK ∧
    Resp.Read (NewResp (STRING :: ascii "OK\r\n")) = Res.ok Value.zero ⟨ascii "OK\r\n", []⟩ ∧
    ¬ ∃ v e r, Resp.Read (NewResp (STRING :: ascii "OK\r\n")) = Res.fail v e r := by
  have h : Resp.Read (NewResp (STRING :: ascii "OK\r\n"))
      = Res.ok Value.zero ⟨ascii "OK\r\n", []⟩ := by rfl
  refine ⟨by decide, by decide, h, ?_⟩
  rintro ⟨v, e, r, hr⟩
  rw [h] at hr
  cases hr
/-! ## The handlers: replies and effects -/

/-- C4. For every store and all texts `k` and `v` (`v` may be empty), `set` called
with `k`, `v` replies SimpleString "OK", and `get` called with `k` right after
replies BulkString `v`, which is neither Null nor an Error. -/
theorem set_then_get (st : Store) (k v : Bytes) :
    (set st [Value.bulkString k, Value.bulkString v]).1 = Value.simple (ascii "OK") ∧
    (get (set st [Value.bulkString k, Value.bulkString v]).2 [Value.bulkString k]).1
      = Value.bulkString v ∧
    (get (set st [Value.bulkString k, Value.bulkString v]).2 [Value.bulkString k]).1
      ≠ Value.null ∧
    (get (set st [Value.bulkString k, Value.bulkString v]).2 [Value.bulkString k]).1.typ
      ≠ "error" := by
  have h : (get (set st [Value.bulkString k, Value.bulkString v]).2 [Value.bulkString k]).1
      = Value.bulkString v := by
    simp [get, RedisGo.set, Value.bulkString, Value.bulk, Finmap.lookup_insert]
  refine ⟨rfl, h, ?_, ?_⟩
  · rw [h]
    simp [Value.bulkString, Value.null]
  · rw [h]
    simp [Value.bulkString, Value.typ]

/-- C5. For every store and every key `k` that the StringTable does not hold,
`get` called with `k` replies Null, which is neither an Error nor a BulkString. -/
theorem get_absent (st : Store) (k : Bytes) (h : k ∉ st.SETs) :
    (get st [Value.bulkString k]).1 = Value.null ∧
    (get st [Value.bulkString k]).1.typ ≠ "error" ∧
    (get st [Value.bulkString k]).1.typ ≠ "bulk" := by
  have hl : st.SETs.lookup k = none := Finmap.lookup_eq_none.mpr h
  have h1 : (get st [Value.bulkString k]).1 = Value.null := by
    simp [get, Value.bulkString, Value.bulk, hl, Value.null]
  refine ⟨h1, ?_, ?_⟩ <;> rw [h1] <;> simp [Value.null, Value.typ]

theorem get_absent_witness :
    (ascii "missing") ∉ Store.empty.SETs ∧
    (get Store.empty [Value.bulkString (ascii "missing")]).1 = Value.null :=
  ⟨Finmap.not_mem_empty, (get_absent Store.empty (ascii "missing") Finmap.not_mem_empty).1⟩

/-- C6. A handler called with an argument list whose length is not the one it
requires (set 2, get 1, hset 3, hget 2, hgetall 1) replies an Error whose text
contains "wrong number of arguments for '<c>' command", `<c>` being the
lower-case command name, and leaves both tables as they were. -/
theorem arity_error_reply (st : Store) (args : List Value)
    (order : StrMap → List (Sigma (fun _ : Bytes => Bytes))) :
    (args.length ≠ 2 →
      (set st args).1 = Value.error (ascii "ERR " ++ arityText "set") ∧
      arityText "set" <:+: (set st args).1.str ∧ (set st args).2 = st) ∧
    (args.length ≠ 1 →
      (get st args).1 = Value.error (ascii "ERR " ++ arityText "get") ∧
      arityText "get" <:+: (get st args).1.str ∧ (get st args).2 = st) ∧
    (args.length ≠ 3 →
      (hset st args).1 = Value.error (ascii "ERR " ++ arityText "hset") ∧
      arityText "hset" <:+: (hset st args).1.str ∧ (hset st args).2 = st) ∧
    (args.length ≠ 2 →
      (hget st args).1 = Value.error (ascii "ERR " ++ arityText "hget") ∧
      arityText "hget" <:+: (hget st args).1.str ∧ (hget st args).2 = st) ∧
    (args.length ≠ 1 →
      (hgetall order st args).1 = Value.error (ascii "ERR " ++ arityText "hgetall") ∧
      arityText "hgetall" <:+: (hgetall order st args).1.str ∧
      (hgetall order st args).2 = st) := by
  refine ⟨?_, ?_, ?_, ?_, ?_⟩
  · intro h
    have e : set st args =
        (Value.mk "error" (ascii "ERR wrong number of arguments for 'set' command") 0 [] [], st) := by
      rcases args with _ | ⟨a, _ | ⟨b, _ | ⟨c, rest⟩⟩⟩ <;> first | rfl | exact absurd rfl h
    rw [e]
    exact ⟨rfl, ⟨ascii "ERR ", [], rfl⟩, rfl⟩
  · intro h
    have e : get st args =
        (Value.mk "error" (ascii "ERR wrong number of arguments for 'get' command") 0 [] [], st) := by
      rcases args with _ | ⟨a, _ | ⟨b, rest⟩⟩ <;> first | rfl | exact absurd rfl h
    rw [e]
    exact ⟨rfl, ⟨ascii "ERR ", [], rfl⟩, rfl⟩
  · intro h
    have e : hset st args =
        (Value.mk "error" (ascii "ERR wrong number of arguments for 'hset' command") 0 [] [], st) := by
      rcases args with _ | ⟨a, _ | ⟨b, _ | ⟨c, _ | ⟨d, rest⟩⟩⟩⟩ <;> first | rfl | exact absurd rfl h
    rw [e]
    exact ⟨rfl, ⟨ascii "ERR ", [], rfl⟩, rfl⟩
  · intro h
    have e : hget st args =
        (Value.mk "error" (ascii "ERR wrong number of arguments for 'hget' command") 0 [] [], st) := by
      rcases args with _ | ⟨a, _ | ⟨b, _ | ⟨c, rest⟩⟩⟩ <;> first | rfl | exact absurd rfl h
    rw [e]
    exact ⟨rfl, ⟨ascii "ERR ", [], rfl⟩, rfl⟩
  · intro h
    have e : hgetall order st args =
        (Value.mk "error" (ascii "ERR wrong number of arguments for 'hgetall' command") 0 [] [], st) := by
      rcases args with _ | ⟨a, _ | ⟨b, rest⟩⟩ <;> first | rfl | exact absurd rfl h
    rw [e]
    exact ⟨rfl, ⟨ascii "ERR ", [], rfl⟩, rfl⟩

theorem arity_error_reply_witness :
    ([Value.bulkString (ascii "k"), Value.bulkString (ascii "v"),
        Value.bulkString (ascii "w"), Value.bulkString (ascii "x")] : List Value).length ≠ 2 ∧
    ([Value.bulkString (ascii "k"), Value.bulkString (ascii "v"),
        Value.bulkString (ascii "w"), Value.bulkString (ascii "x")] : List Value).length ≠ 1 ∧
    ([Value.bulkString (ascii "k"), Value.bulkString (ascii "v"),
        Value.bulkString (ascii "w"), Value.bulkString (ascii "x")] : List Value).length ≠ 3 ∧
    (set Store.empty [Value.bulkString (ascii "k"), Value.bulkString (ascii "v"),
        Value.bulkString (ascii "w"), Value.bulkString (ascii "x")]).1
      = Value.error (ascii "ERR wrong number of arguments for 'set' command") ∧
    (get Store.empty [Value.bulkString (ascii "k"), Value.bulkString (ascii "v"),
        Value.bulkString (ascii "w"), Value.bulkString (ascii "x")]).1
      = Value.error (ascii "ERR wrong number of arguments for 'get' command") ∧
    (hset Store.empty [Value.bulkString (ascii "k"), Value.bulkString (ascii "v"),
        Value.bulkString (ascii "w"), Value.bulkString (ascii "x")]).1
      = Value.error (ascii "ERR wrong number of arguments for 'hset' command") ∧
    (hget Store.empty [Value.bulkString (ascii "k"), Value.bulkString (ascii "v"),
        Value.bulkString (ascii "w"), Value.bulkString (ascii "x")]).1
      = Value.error (ascii "ERR wrong number of arguments for 'hget' command") ∧
    (hgetall sortedOrder Store.empty [Value.bulkString (ascii "k"), Value.bulkString (ascii "v"),
        Value.bulkString (ascii "w"), Value.bulkString (ascii "x")]).1
      = Value.error (ascii "ERR wrong number of arguments for 'hgetall' command") ∧
    (set Store.empty [Value.bulkString (ascii "k"), Value.bulkString (ascii "v"),
        Value.bulkString (ascii "w"), Value.bulkString (ascii "x")]).2 = Store.empty :=
  have h := arity_error_reply Store.empty [Value.bulkString (ascii "k"),
    Value.bulkString (ascii "v"), Value.bulkString (ascii "w"), Value.bulkString (ascii "x")]
    sortedOrder
  ⟨by decide, by decide, by decide, (h.1 (by decide)).1, (h.2.1 (by decide)).1,
    (h.2.2.1 (by decide)).1, (h.2.2.2.1 (by decide)).1, (h.2.2.2.2 (by decide)).1,
    (h.1 (by decide)).2.2⟩

/-- C7. For every store and all texts `h`, `f`, `v`, `hset` called with `h`, `f`,
`v` replies SimpleString "OK", `h` is a hash name afterwards (its inner map is
the one entry `f`, `v` when `h` was unseen), and `hget` called with `h`, `f`
right after replies BulkString `v`. -/
theorem hset_then_hget (st : Store) (h f v : Bytes) :
    (hset st [Value.bulkString h, Value.bulkString f, Value.bulkString v]).1
      = Value.simple (ascii "OK") ∧
    h ∈ (hset st [Value.bulkString h, Value.bulkString f, Value.bulkString v]).2.HSETs ∧
    (h ∉ st.HSETs →
      (hset st [Value.bulkString h, Value.bulkString f, Value.bulkString v]).2.HSETs.lookup h
        = some (Finmap.singleton f v)) ∧
    (hget (hset st [Value.bulkString h, Value.bulkString f, Value.bulkString v]).2
        [Value.bulkString h, Value.bulkString f]).1 = Value.bulkString v := by
  refine ⟨rfl, ?_, ?_, ?_⟩
  · simp [hset, Value.bulkString, Value.bulk, Finmap.mem_insert]
  · intro hn
    have : st.HSETs.lookup h = none := Finmap.lookup_eq_none.mpr hn
    simp [hset, Value.bulkString, Value.bulk, Finmap.lookup_insert, this]
    rfl
  · simp [hset, hget, Value.bulkString, Value.bulk, Finmap.lookup_insert]

theorem hset_then_hget_witness :
    (ascii "users") ∉ Store.empty.HSETs ∧
    (hset Store.empty [Value.bulkString (ascii "users"), Value.bulkString (ascii "u1"),
        Value.bulkString (ascii "Ahmed")]).2.HSETs.lookup (ascii "users")
      = some (Finmap.singleton (ascii "u1") (ascii "Ahmed")) :=
  ⟨Finmap.not_mem_empty,
   (hset_then_hget Store.empty (ascii "users") (ascii "u1") (ascii "Ahmed")).2.2.1
     Finmap.not_mem_empty⟩

/-- C8. For every store and all texts `h` and `f` such that `h` is no hash name
of the HashTable, or is one whose inner map has no field `f`, `hget` called with
`h`, `f` replies Null. -/
theorem hget_absent (st : Store) (h f : Bytes)
    (habs : h ∉ st.HSETs ∨ ∃ m, st.HSETs.lookup h = some m ∧ f ∉ m) :
    (hget st [Value.bulkString h, Value.bulkString f]).1 = Value.null := by
  rcases habs with hn | ⟨m, hm, hf⟩
  · have : st.HSETs.lookup h = none := Finmap.lookup_eq_none.mpr hn
    simp [hget, Value.bulkString, Value.bulk, this, Value.null]
  · have : m.lookup f = none := Finmap.lookup_eq_none.mpr hf
    simp [hget, Value.bulkString, Value.bulk, hm, this, Value.null]

theorem hget_absent_witness :
    ((ascii "nosuchhash") ∉ Store.empty.HSETs ∨
      ∃ m, Store.empty.HSETs.lookup (ascii "nosuchhash") = some m ∧ (ascii "f") ∉ m) ∧
    (hget Store.empty [Value.bulkString (ascii "nosuchhash"), Value.bulkString (ascii "f")]).1
      = Value.null :=
  ⟨Or.inl Finmap.not_mem_empty,
   hget_absent Store.empty (ascii "nosuchhash") (ascii "f") (Or.inl Finmap.not_mem_empty)⟩

/-! ## Replay is idempotent -/

theorem Store.ext_obs {s t : Store} (h1 : ∀ k, s.SETs.lookup k = t.SETs.lookup k)
    (h2 : ∀ h, (s.HSETs.lookup h).isSome = (t.HSETs.lookup h).isSome)
    (h3 : ∀ h f, s.field h f = t.field h f) : s = t := by
  cases s with
  | mk a b =>
    cases t with
    | mk c d =>
      have e1 : a = c := Finmap.ext_lookup h1
      have e2 : b = d := by
        apply Finmap.ext_lookup
        intro h
        have h2' := h2 h
        have h3' := h3 h
        simp only [Store.field] at h2' h3'
        cases hb : Finmap.lookup h b with
        | none =>
          cases hd : Finmap.lookup h d with
          | none => rfl
          | some m => rw [hb, hd] at h2'; simp at h2'
        | some m =>
          cases hd : Finmap.lookup h d with
          | none => rw [hb, hd] at h2'; simp at h2'
          | some m' =>
            rw [hb, hd] at h3'
            simp only [Option.some_bind] at h3'
            rw [Finmap.ext_lookup h3']
      rw [e1, e2]

theorem Overwrites.idem {F : Store → Store} (hF : Overwrites F) (st : Store) :
    F (F st) = F st := by
  obtain ⟨g, G, gh, hF⟩ := hF
  apply Store.ext_obs
  · intro k
    rw [(hF (F st)).1 k, (hF st).1 k]
    cases g k <;> rfl
  · intro h
    rw [(hF (F st)).2.1 h, (hF st).2.1 h]
    cases G h <;> simp
  · intro h f
    rw [(hF (F st)).2.2 h f, (hF st).2.2 h f]
    cases gh h f <;> rfl

theorem Overwrites.id : Overwrites (fun st => st) :=
  ⟨fun _ => none, fun _ => false, fun _ _ => none, fun st => ⟨fun _ => rfl, fun _ => by simp, fun _ _ => rfl⟩⟩

theorem Overwrites.comp {F F' : Store → Store} (hF : Overwrites F) (hF' : Overwrites F') :
    Overwrites (fun st => F' (F st)) := by
  obtain ⟨g, G, gh, hF⟩ := hF
  obtain ⟨g', G', gh', hF'⟩ := hF'
  refine ⟨fun k => (g' k).orElse (fun _ => g k), fun h => G' h || G h,
    fun h f => (gh' h f).orElse (fun _ => gh h f), fun st => ⟨?_, ?_, ?_⟩⟩
  · intro k
    rw [(hF' (F st)).1 k, (hF st).1 k]
    dsimp only
    cases g' k <;> rfl
  · intro h
    rw [(hF' (F st)).2.1 h, (hF st).2.1 h, Bool.or_assoc]
  · intro h f
    rw [(hF' (F st)).2.2 h f, (hF st).2.2 h f]
    dsimp only
    cases gh' h f <;> rfl

theorem overwrites_set (args : List Value) : Overwrites (fun st => (set st args).2) := by
  rcases args with _ | ⟨a, _ | ⟨b, _ | ⟨c, rest⟩⟩⟩
  · exact Overwrites.id
  · exact Overwrites.id
  · refine ⟨fun k => if k = a.bulk then some b.bulk else none, fun _ => false, fun _ _ => none,
      fun st => ⟨?_, fun _ => by simp [RedisGo.set], fun _ _ => rfl⟩⟩
    intro k
    by_cases hk : k = a.bulk
    · subst hk
      simp [RedisGo.set, Finmap.lookup_insert]
    · simp [RedisGo.set, Finmap.lookup_insert_of_ne _ hk, hk]
  · exact Overwrites.id

theorem overwrites_hset (args : List Value) : Overwrites (fun st => (hset st args).2) := by
  rcases args with _ | ⟨a, _ | ⟨b, _ | ⟨c, _ | ⟨d, rest⟩⟩⟩⟩
  · exact Overwrites.id
  · exact Overwrites.id
  · exact Overwrites.id
  · refine ⟨fun _ => none, fun h => decide (h = a.bulk),
      fun h f => if h = a.bulk ∧ f = b.bulk then some c.bulk else none,
      fun st => ⟨fun _ => rfl, ?_, ?_⟩⟩
    · intro h
      by_cases hh : h = a.bulk
      · subst hh
        simp [hset, Finmap.lookup_insert]
      · simp [hset, Finmap.lookup_insert_of_ne _ hh, hh]
    · intro h f
      by_cases hh : h = a.bulk
      · subst hh
        by_cases hf : f = b.bulk
        · subst hf
          simp [hset, Store.field, Finmap.lookup_insert]
        · simp only [hset, Store.field, Finmap.lookup_insert, Option.some_bind,
            Finmap.lookup_insert_of_ne _ hf, hf, and_false, if_false]
          cases st.HSETs.lookup a.bulk <;> simp [Finmap.lookup_empty]
      · simp [hset, Store.field, Finmap.lookup_insert_of_ne _ hh, hh]
  · exact Overwrites.id

theorem overwrites_replay (cs : List (WriteCmd × List Value)) :
    Overwrites (fun st => replay st cs) := by
  induction cs with
  | nil => exact Overwrites.id
  | cons c cs ih =>
    have hc : Overwrites (fun st => applyCmd st c) := by
      rcases c with ⟨c, args⟩
      cases c
      · exact overwrites_set args
      · exact overwrites_hset args
    exact Overwrites.comp hc ih

/-- C3. For every finite sequence `cs` of SET and HSET commands with any argument
lists, applying `cs` and then `cs` again to the empty store through the `set`
and `hset` handlers leaves both tables equal to those that applying `cs` once
gives. -/
theorem replay_twice_eq_once (cs : List (WriteCmd × List Value)) :
    replay Store.empty (cs ++ cs) = replay Store.empty cs := by
  have h : replay Store.empty (cs ++ cs) = replay (replay Store.empty cs) cs := by
    simp [replay, List.foldl_append]
  rw [h]
  exact (overwrites_replay cs).idem Store.empty

/-! ## hgetall -/

theorem flattenPairs_length (ps : List (Sigma (fun _ : Bytes => Bytes))) :
    (flattenPairs ps).length = 2 * ps.length := by
  induction ps with
  | nil => rfl
  | cons p ps ih => simp [flattenPairs, ih]; omega

theorem flattenPairs_even (ps : List (Sigma (fun _ : Bytes => Bytes))) (i : Nat) :
    (flattenPairs ps)[2 * i]? = (ps[i]?).map (fun p => Value.bulkString p.1) := by
  induction ps generalizing i with
  | nil => simp [flattenPairs]
  | cons p ps ih =>
    cases i with
    | zero => simp [flattenPairs, Value.bulkString]
    | succ i =>
      have : 2 * (i + 1) = 2 * i + 1 + 1 := by omega
      rw [this]
      simp only [flattenPairs, List.getElem?_cons_succ]
      exact ih i

theorem flattenPairs_odd (ps : List (Sigma (fun _ : Bytes => Bytes))) (i : Nat) :
    (flattenPairs ps)[2 * i + 1]? = (ps[i]?).map (fun p => Value.bulkString p.2) := by
  induction ps generalizing i with
  | nil => simp [flattenPairs]
  | cons p ps ih =>
    cases i with
    | zero => simp [flattenPairs, Value.bulkString]
    | succ i =>
      have : 2 * (i + 1) + 1 = (2 * i + 1) + 1 + 1 := by omega
      rw [this]
      simp only [flattenPairs, List.getElem?_cons_succ]
      exact ih i

theorem flattenPairs_bulk (ps : List (Sigma (fun _ : Bytes => Bytes))) :
    ∀ x ∈ flattenPairs ps, ∃ s, x = Value.bulkString s := by
  induction ps with
  | nil => simp [flattenPairs]
  | cons p ps ih =>
    intro x hx
    simp only [flattenPairs, List.mem_cons] at hx
    rcases hx with rfl | rfl | hx
    · exact ⟨p.1, rfl⟩
    · exact ⟨p.2, rfl⟩
    · exact ih x hx


theorem keys_card_eq (m : StrMap) : m.keys.card = Multiset.card m.entries := by
  simp [Finmap.keys, Multiset.keys]

/-- The entries of a map in a `range` order: as many as the map has keys, each
one an entry of the map, and no key twice. -/
theorem rangeOrder_facts {order : StrMap → List (Sigma (fun _ : Bytes => Bytes))}
    (hord : RangeOrder order) (m : StrMap) :
    (order m).length = m.keys.card ∧
    (∀ f v, (⟨f, v⟩ : Sigma (fun _ : Bytes => Bytes)) ∈ order m ↔ m.lookup f = some v) ∧
    (order m).NodupKeys := by
  have h := hord m
  refine ⟨?_, ?_, ?_⟩
  · rw [keys_card_eq, ← h]; rfl
  · intro f v
    rw [← Option.mem_def, Finmap.mem_lookup_iff, ← h]
    rfl
  · have hn := m.nodupKeys
    rw [← h] at hn
    exact Multiset.coe_nodupKeys.mp hn

theorem mem_order_index (ps : List (Sigma (fun _ : Bytes => Bytes))) (f v : Bytes)
    (h : (⟨f, v⟩ : Sigma (fun _ : Bytes => Bytes)) ∈ ps) :
    ∃ i, i < ps.length ∧ (flattenPairs ps)[2 * i]? = some (Value.bulkString f) ∧
      (flattenPairs ps)[2 * i + 1]? = some (Value.bulkString v) := by
  obtain ⟨i, hi, e⟩ := List.getElem_of_mem h
  refine ⟨i, hi, ?_, ?_⟩
  · rw [flattenPairs_even, List.getElem?_eq_getElem hi, e]; rfl
  · rw [flattenPairs_odd, List.getElem?_eq_getElem hi, e]; rfl

theorem nodupKeys_index_unique (ps : List (Sigma (fun _ : Bytes => Bytes)))
    (hn : ps.NodupKeys) (i j : Nat) (hi : i < ps.length) (hj : j < ps.length)
    (h : (ps[i]).1 = (ps[j]).1) : i = j := by
  have hk : ps.keys.Nodup := hn
  have hi' : i < ps.keys.length := by simpa [List.keys] using hi
  have hj' : j < ps.keys.length := by simpa [List.keys] using hj
  have e : ps.keys[i] = ps.keys[j] := by
    simp only [List.keys, List.getElem_map]
    exact h
  exact (List.Nodup.getElem_inj_iff hk).mp e

/-- C9. For every store, hash name `h` and order of `range`, `hgetall` called with
`h` replies Null when `h` is absent; otherwise it replies an Array of `2n`
BulkStrings, `n` the number of fields of `h`, whose elements at `2i` and `2i+1`
are a field of `h` and the value stored for it, every field of `h` occurring as
exactly one such pair; and after `hset` with `h`, `f`, `v` the reply holds the
pair `f`, `v`. -/
theorem hgetall_flattens (order : StrMap → List (Sigma (fun _ : Bytes => Bytes)))
    (hord : RangeOrder order) (st : Store) (h : Bytes) :
    (h ∉ st.HSETs → (hgetall order st [Value.bulkString h]).1 = Value.null) ∧
    (∀ m, st.HSETs.lookup h = some m →
      ∃ arr : List Value,
        (hgetall order st [Value.bulkString h]).1 = Value.arrayOf arr ∧
        arr.length = 2 * m.keys.card ∧
        (∀ x ∈ arr, ∃ s, x = Value.bulkString s) ∧
        (∀ i, i < m.keys.card → ∃ f v, m.lookup f = some v ∧
          arr[2 * i]? = some (Value.bulkString f) ∧
          arr[2 * i + 1]? = some (Value.bulkString v)) ∧
        (∀ f v, m.lookup f = some v → ∃! i, i < m.keys.card ∧
          arr[2 * i]? = some (Value.bulkString f) ∧
          arr[2 * i + 1]? = some (Value.bulkString v)) ∧
        (∀ f, f ∈ m → ∃! i, i < m.keys.card ∧ arr[2 * i]? = some (Value.bulkString f))) ∧
    (∀ f v, ∃ arr : List Value,
      (hgetall order
          (hset st [Value.bulkString h, Value.bulkString f, Value.bulkString v]).2
          [Value.bulkString h]).1 = Value.arrayOf arr ∧
      ∃ i, arr[2 * i]? = some (Value.bulkString f) ∧
        arr[2 * i + 1]? = some (Value.bulkString v)) := by
  refine ⟨?_, ?_, ?_⟩
  · intro hn
    have : st.HSETs.lookup h = none := Finmap.lookup_eq_none.mpr hn
    simp [hgetall, Value.bulkString, Value.bulk, this, Value.null]
  · intro m hm
    obtain ⟨hlen, hmem, hnd⟩ := rangeOrder_facts hord m
    have key : ∀ f v, m.lookup f = some v → ∃! i, i < m.keys.card ∧
        (flattenPairs (order m))[2 * i]? = some (Value.bulkString f) ∧
        (flattenPairs (order m))[2 * i + 1]? = some (Value.bulkString v) := by
      intro f v hfv
      obtain ⟨i, hi, h1, h2⟩ := mem_order_index (order m) f v ((hmem f v).mpr hfv)
      refine ⟨i, ⟨hlen ▸ hi, h1, h2⟩, ?_⟩
      rintro j ⟨hj, hj1, _⟩
      have hj' : j < (order m).length := hlen ▸ hj
      rw [flattenPairs_even, List.getElem?_eq_getElem hj'] at hj1
      rw [flattenPairs_even, List.getElem?_eq_getElem hi] at h1
      simp only [Option.map_some', Option.some.injEq] at hj1 h1
      have e1 := bulkString_inj hj1
      have e2 := bulkString_inj h1
      exact nodupKeys_index_unique (order m) hnd j i hj' hi (e1.trans e2.symm)
    refine ⟨flattenPairs (order m), ?_, ?_, flattenPairs_bulk _, ?_, key, ?_⟩
    · simp [hgetall, Value.bulkString, Value.bulk, hm, Value.arrayOf]
    · rw [flattenPairs_length, hlen]
    · intro i hi
      have hi' : i < (order m).length := hlen ▸ hi
      refine ⟨((order m)[i]).1, ((order m)[i]).2, ?_, ?_, ?_⟩
      · exact (hmem _ _).mp (List.getElem_mem hi')
      · rw [flattenPairs_even, List.getElem?_eq_getElem hi']; rfl
      · rw [flattenPairs_odd, List.getElem?_eq_getElem hi']; rfl
    · intro f hf
      obtain ⟨v, hv⟩ := Finmap.mem_iff.mp hf
      obtain ⟨i, ⟨hi, h1, h2⟩, huniq⟩ := key f v hv
      refine ⟨i, ⟨hi, h1⟩, ?_⟩
      rintro j ⟨hj, hj1⟩
      have hj' : j < (order m).length := hlen ▸ hj
      have hi' : i < (order m).length := hlen ▸ hi
      rw [flattenPairs_even, List.getElem?_eq_getElem hj'] at hj1
      rw [flattenPairs_even, List.getElem?_eq_getElem hi'] at h1
      simp only [Option.map_some', Option.some.injEq] at hj1 h1
      exact nodupKeys_index_unique (order m) hnd j i hj' hi'
        ((bulkString_inj hj1).trans (bulkString_inj h1).symm)
  · intro f v
    let m' : StrMap := ((st.HSETs.lookup h).getD ∅).insert f v
    have hm' : (hset st [Value.bulkString h, Value.bulkString f,
        Value.bulkString v]).2.HSETs.lookup h = some m' := by
      simp [hset, Value.bulkString, Value.bulk, Finmap.lookup_insert, m']
    obtain ⟨_, hmem, _⟩ := rangeOrder_facts hord m'
    have hfv : m'.lookup f = some v := Finmap.lookup_insert _
    obtain ⟨i, _, h1, h2⟩ := mem_order_index (order m') f v ((hmem f v).mpr hfv)
    refine ⟨flattenPairs (order m'), ?_, i, h1, h2⟩
    simp only [hgetall, Value.bulkString, Value.bulk, Value.arrayOf]
    simp only [Value.bulkString, Value.bulk] at hm'
    rw [hm']

theorem rangeOrder_sortedOrder : RangeOrder sortedOrder :=
  fun m => Multiset.sort_eq entryLe m.entries

theorem hgetall_flattens_witness :
    RangeOrder sortedOrder ∧
    (ascii "users") ∉ Store.empty.HSETs ∧
    (hgetall sortedOrder Store.empty [Value.bulkString (ascii "users")]).1 = Value.null ∧
    (∃ arr : List Value,
      (hgetall sortedOrder
          (hset Store.empty [Value.bulkString (ascii "users"), Value.bulkString (ascii "u1"),
            Value.bulkString (ascii "Ahmed")]).2
          [Value.bulkString (ascii "users")]).1 = Value.arrayOf arr ∧
      ∃ i, arr[2 * i]? = some (Value.bulkString (ascii "u1")) ∧
        arr[2 * i + 1]? = some (Value.bulkString (ascii "Ahmed"))) :=
  ⟨rangeOrder_sortedOrder, Finmap.not_mem_empty,
   (hgetall_flattens sortedOrder rangeOrder_sortedOrder Store.empty (ascii "users")).1
     Finmap.not_mem_empty,
   (hgetall_flattens sortedOrder rangeOrder_sortedOrder Store.empty (ascii "users")).2.2
     (ascii "u1") (ascii "Ahmed")⟩

/-! ## Marshal, byte by byte -/

theorem digitChar_byte (d : Nat) (h : d < 10) :
    (Nat.digitChar d).toNat.toUInt8 = 48 + d.toUInt8 := by
  interval_cases d <;> decide

theorem itoaAux_toDigitsCore (fuel n : Nat) (ds : List Char) :
    itoaAux fuel n (ds.map (fun c => c.toNat.toUInt8))
      = (Nat.toDigitsCore 10 fuel n ds).map (fun c => c.toNat.toUInt8) := by
  induction fuel generalizing n ds with
  | zero => rfl
  | succ fuel ih =>
    unfold itoaAux
    simp only [Nat.toDigitsCore]
    have hd : (Nat.digitChar (n % 10)).toNat.toUInt8 = 48 + (n % 10).toUInt8 :=
      digitChar_byte _ (Nat.mod_lt _ (by decide))
    by_cases h : n < 10
    · have h0 : n / 10 = 0 := by omega
      have hm : n % 10 = n := by omega
      rw [if_pos h, if_pos h0, List.map_cons, hd, hm]
    · have h0 : ¬ n / 10 = 0 := by omega
      rw [if_neg h, if_neg h0, ← hd]
      exact ih (n / 10) (Nat.digitChar (n % 10) :: ds)

/-- The digits `Itoa` writes for a length are the decimal numeral of the length. -/
theorem Itoa_eq_repr (n : Nat) : Itoa (n : Int) = ascii (toString n) := by
  rw [Itoa_natCast]
  have h := itoaAux_toDigitsCore (n + 1) n []
  simp only [List.map_nil] at h
  simp only [itoaNat, h, ascii]
  rfl

theorem marshalElems_eq (xs : List Value) : marshalElems xs = (xs.map Marshal).flatten := by
  induction xs with
  | nil => rfl
  | cons x xs ih => simp [marshalElems, ih]

/-- C14. `Marshal` is byte-exact on the variants the handlers produce: a
BulkString is `$`, the decimal byte length, CRLF, the bytes, CRLF; an Array is
`*`, the decimal element count, CRLF, then the encodings of the elements in
order; a SimpleString is `+`, the text, CRLF; an Error is `-`, the text, CRLF;
Null is `$-1\r\n`. -/
theorem marshal_byte_exact (s : Bytes) (xs : List Value) :
    Marshal (Value.bulkString s)
      = ascii "$" ++ ascii (toString s.length) ++ ascii "\r\n" ++ s ++ ascii "\r\n" ∧
    Marshal (Value.arrayOf xs)
      = ascii "*" ++ ascii (toString xs.length) ++ ascii "\r\n" ++ (xs.map Marshal).flatten ∧
    Marshal (Value.simple s) = ascii "+" ++ s ++ ascii "\r\n" ∧
    Marshal (Value.error s) = ascii "-" ++ s ++ ascii "\r\n" ∧
    Marshal Value.null = ascii "$-1\r\n" := by
  refine ⟨?_, ?_, ?_, ?_, ?_⟩
  · have h : Marshal (Value.bulkString s)
        = [BULK] ++ Itoa (s.length : Int) ++ [CR, LF] ++ s ++ [CR, LF] := by
      simp [Marshal, marshalBulk, Value.bulk, Value.bulkString]
    rw [h, Itoa_eq_repr]
    rfl
  · have h : Marshal (Value.arrayOf xs)
        = [ARRAY] ++ Itoa (xs.length : Int) ++ [CR, LF] ++ marshalElems xs := by
      simp [Marshal, Value.arrayOf]
    rw [h, Itoa_eq_repr, marshalElems_eq]
    rfl
  · have h : Marshal (Value.simple s) = [STRING] ++ s ++ [CR, LF] := by
      simp [Marshal, marshalString, Value.str, Value.simple]
    rw [h]
    rfl
  · have h : Marshal (Value.error s) = [ERROR] ++ s ++ [CR, LF] := by
      simp [Marshal, marshallError, Value.str, Value.error]
    rw [h]
    rfl
  · rfl

/-! ## No encoding of integers -/

/-- C15, as amended. `Marshal` has no branch for integers: a value whose `typ`
is none of "array", "bulk", "string", "null", "error", whatever its `num`, is
encoded as no bytes at all, and no value is encoded with `:` as its first
byte. -/
theorem marshal_other_typ (v : Value) (h1 : v.typ ≠ "array") (h2 : v.typ ≠ "bulk")
    (h3 : v.typ ≠ "string") (h4 : v.typ ≠ "null") (h5 : v.typ ≠ "error") :
    Marshal v = [] ∧ ∀ (w : Value) (rest : Bytes), Marshal w ≠ INTEGER :: rest := by
  constructor
  · cases v with
    | mk typ str num bulk array =>
      simp only [Value.typ] at h1 h2 h3 h4 h5
      simp [Marshal, h1, h2, h3, h4, h5]
  · intro w rest
    cases w with
    | mk typ str num bulk array =>
      simp only [Marshal]
      split
      · intro h; injection h with h _; exact absurd h (by decide)
      · split
        · intro h; injection h with h _; exact absurd h (by decide)
        · split
          · intro h; injection h with h _; exact absurd h (by decide)
          · split
            · intro h; injection h with h _; exact absurd h (by decide)
            · split
              · intro h; injection h with h _; exact absurd h (by decide)
              · intro h; cases h

theorem marshal_other_typ_witness :
    (Value.integer 5).typ ≠ "array" ∧ (Value.integer 5).typ ≠ "bulk" ∧
    (Value.integer 5).typ ≠ "string" ∧ (Value.integer 5).typ ≠ "null" ∧
    (Value.integer 5).typ ≠ "error" ∧ Marshal (Value.integer 5) = [] :=
  ⟨by decide, by decide, by decide, by decide, by decide,
   (marshal_other_typ (Value.integer 5) (by decide) (by decide) (by decide) (by decide)
     (by decide)).1⟩

/-- C15 fails on the Integer value 5: `Marshal` yields no bytes, not `:5\r\n`. -/
theorem marshal_integer_empty :
    Marshal (Value.integer 5) = [] ∧
    Marshal (Value.integer 5) ≠ [INTEGER] ++ Itoa 5 ++ [CR, LF] ∧
    Marshal (Value.mk "integer" [] 5 [] []) ≠ ascii ":5\r\n" := by
  refine ⟨by rfl, ?_, ?_⟩
  · have h : Marshal (Value.integer 5) = [] := by rfl
    rw [h]
    decide
  · have h : Marshal (Value.mk "integer" [] 5 [] []) = [] := by rfl
    rw [h]
    decide

/-! ## ping -/

/-- C17. With no argument `ping` replies SimpleString "PONG"; with at least one
it replies the SimpleString whose text is the bulk text of the first argument,
whatever follows; the reply is never an Error and the store is unchanged. -/
theorem ping_reply (st : Store) (args : List Value) :
    ping st [] = (Value.simple (ascii "PONG"), st) ∧
    (∀ (a : Value) (rest : List Value), ping st (a :: rest) = (Value.simple a.bulk, st)) ∧
    (ping st args).1.typ = "string" ∧ (ping st args).1.typ ≠ "error" ∧
    (ping st args).2 = st := by
  refine ⟨rfl, fun _ _ => rfl, ?_, ?_, ?_⟩ <;> cases args <;> simp [ping, Value.typ]

/-! ## Writes are local -/

/-- C19. A successful `set` with `k`, `v` leaves the value of every other key
and the whole HashTable as they were; a successful `hset` with `h`, `f`, `v`
leaves the whole StringTable, the inner map of every other hash and every other
field of `h` as they were and removes no hash name; `get`, `hget`, `hgetall`
and `ping` leave both tables as they were, whatever their arguments. -/
theorem writes_are_local (st : Store) (k v h f : Bytes) (args : List Value)
    (order : StrMap → List (Sigma (fun _ : Bytes => Bytes))) :
    ((∀ k', k' ≠ k →
        (set st [Value.bulkString k, Value.bulkString v]).2.SETs.lookup k'
          = st.SETs.lookup k') ∧
      (set st [Value.bulkString k, Value.bulkString v]).2.HSETs = st.HSETs) ∧
    ((hset st [Value.bulkString h, Value.bulkString f, Value.bulkString v]).2.SETs = st.SETs ∧
      (∀ h', h' ≠ h →
        (hset st [Value.bulkString h, Value.bulkString f, Value.bulkString v]).2.HSETs.lookup h'
          = st.HSETs.lookup h') ∧
      (∀ f', f' ≠ f →
        (hset st [Value.bulkString h, Value.bulkString f, Value.bulkString v]).2.field h f'
          = st.field h f') ∧
      (∀ h', h' ∈ st.HSETs →
        h' ∈ (hset st [Value.bulkString h, Value.bulkString f, Value.bulkString v]).2.HSETs)) ∧
    ((get st args).2 = st ∧ (hget st args).2 = st ∧ (hgetall order st args).2 = st ∧
      (ping st args).2 = st) := by
  refine ⟨⟨?_, rfl⟩, ⟨rfl, ?_, ?_, ?_⟩, ⟨?_, ?_, ?_, ?_⟩⟩
  · intro k' hk
    simp [RedisGo.set, Value.bulkString, Value.bulk, Finmap.lookup_insert_of_ne _ hk]
  · intro h' hh
    simp [hset, Value.bulkString, Value.bulk, Finmap.lookup_insert_of_ne _ hh]
  · intro f' hf
    simp only [hset, Store.field, Value.bulkString, Value.bulk, Finmap.lookup_insert,
      Option.some_bind, Finmap.lookup_insert_of_ne _ hf]
    cases st.HSETs.lookup h <;> simp [Finmap.lookup_empty]
  · intro h' hh
    simp only [hset, Finmap.mem_insert]
    exact Or.inr hh
  · rcases args with _ | ⟨a, _ | ⟨b, rest⟩⟩
    · rfl
    · simp only [get]
      cases st.SETs.lookup a.bulk <;> rfl
    · rfl
  · rcases args with _ | ⟨a, _ | ⟨b, _ | ⟨c, rest⟩⟩⟩
    · rfl
    · rfl
    · simp only [hget]
      cases (st.HSETs.lookup a.bulk).bind (fun m => m.lookup b.bulk) <;> rfl
    · rfl
  · rcases args with _ | ⟨a, _ | ⟨b, rest⟩⟩
    · rfl
    · simp only [hgetall]
      cases st.HSETs.lookup a.bulk <;> rfl
    · rfl
  · cases args <;> rfl

theorem writes_are_local_witness :
    (ascii "other") ≠ (ascii "k") ∧
    (set (set Store.empty [Value.bulkString (ascii "other"), Value.bulkString (ascii "x")]).2
        [Value.bulkString (ascii "k"), Value.bulkString (ascii "v")]).2.SETs.lookup (ascii "other")
      = (set Store.empty [Value.bulkString (ascii "other"),
          Value.bulkString (ascii "x")]).2.SETs.lookup (ascii "other") ∧
    (hgetall sortedOrder Store.empty [Value.bulkString (ascii "unseen")]).2 = Store.empty :=
  have h := writes_are_local
    (set Store.empty [Value.bulkString (ascii "other"), Value.bulkString (ascii "x")]).2
    (ascii "k") (ascii "v") (ascii "h") (ascii "f") [] sortedOrder
  ⟨by decide, h.1.1 (ascii "other") (by decide),
   (writes_are_local Store.empty (ascii "k") (ascii "v") (ascii "h") (ascii "f")
     [Value.bulkString (ascii "unseen")] sortedOrder).2.2.2.2.1⟩

/-! ## The offset of the append-only file -/

theorem Aof_Write_at_start (c : Bytes) (v : Value) :
    (Aof.Write (NewAof c) v).file.content = Marshal v ++ c.drop (Marshal v).length := by
  simp [Aof.Write, NewAof, File.Write]

/-- On a file that holds something, a `Write` that is not empty, made right
after `NewAof`, does not leave the old bytes followed by the new ones. -/
theorem Aof_Write_not_appended (c : Bytes) (v : Value) (hc : c ≠ []) (hv : Marshal v ≠ []) :
    (Aof.Write (NewAof c) v).file.content ≠ c ++ Marshal v := by
  rw [Aof_Write_at_start]
  intro h
  have hl := congrArg List.length h
  simp only [List.length_append, List.length_drop] at hl
  have h1 : 0 < c.length := List.length_pos.mpr hc
  have h2 : 0 < (Marshal v).length := List.length_pos.mpr hv
  omega

/-- C16 fails on a log that holds SET k old: `NewAof` leaves the offset at 0, so
`Aof.Write` of SET k new, with no `Aof.Read` before it, writes over the bytes of
the first request instead of going after them. -/
theorem aof_write_overwrites :
    (Aof.Write
        (NewAof (Marshal (Value.arrayOf [Value.bulkString (ascii "SET"),
          Value.bulkString (ascii "k"), Value.bulkString (ascii "old")])))
        (Value.arrayOf [Value.bulkString (ascii "SET"), Value.bulkString (ascii "k"),
          Value.bulkString (ascii "new")])).file.content
      = Marshal (Value.arrayOf [Value.bulkString (ascii "SET"), Value.bulkString (ascii "k"),
          Value.bulkString (ascii "new")]) ∧
    (Aof.Write
        (NewAof (Marshal (Value.arrayOf [Value.bulkString (ascii "SET"),
          Value.bulkString (ascii "k"), Value.bulkString (ascii "old")])))
        (Value.arrayOf [Value.bulkString (ascii "SET"), Value.bulkString (ascii "k"),
          Value.bulkString (ascii "new")])).file.content
      ≠ Marshal (Value.arrayOf [Value.bulkString (ascii "SET"), Value.bulkString (ascii "k"),
          Value.bulkString (ascii "old")]) ++
        Marshal (Value.arrayOf [Value.bulkString (ascii "SET"), Value.bulkString (ascii "k"),
          Value.bulkString (ascii "new")]) := by
  constructor
  · decide
  · decide

/-! ## Reading byte by byte over the fills of the buffer -/

theorem remaining_eq_stream (r : Reader) : r.remaining = r.stream.length := by
  simp [Reader.remaining, Reader.stream]

theorem ReadByte_none_iff (r : Reader) : r.ReadByte = none ↔ r.stream = [] := by
  rcases r with ⟨buf, src⟩
  cases buf with
  | cons b bs => simp [Reader.ReadByte, Reader.stream]
  | nil =>
    cases src with
    | nil => simp [Reader.ReadByte, Reader.stream]
    | cons c cs =>
      have h : Reader.ReadByte ⟨[], c :: cs⟩
          = some (c, ⟨List.take (defaultBufSize - 1) cs, List.drop defaultBufSize (c :: cs)⟩) := rfl
      simp [h, Reader.stream]

theorem ReadByte_some (r r1 : Reader) (b : UInt8) (h : r.ReadByte = some (b, r1)) :
    r.stream = b :: r1.stream := by
  rcases r with ⟨buf, src⟩
  cases buf with
  | cons c cs =>
    simp only [Reader.ReadByte, Option.some.injEq, Prod.mk.injEq] at h
    obtain ⟨rfl, rfl⟩ := h
    rfl
  | nil =>
    simp only [Reader.ReadByte] at h
    split at h
    · cases h
    · rename_i c cs hc
      simp only [Option.some.injEq, Prod.mk.injEq] at h
      obtain ⟨rfl, rfl⟩ := h
      simp only [Reader.stream, List.nil_append]
      rw [← List.cons_append, ← hc, List.take_append_drop]

theorem ReadByte_remaining (r r1 : Reader) (b : UInt8) (h : r.ReadByte = some (b, r1)) :
    r.remaining = r1.remaining + 1 := by
  rw [remaining_eq_stream, remaining_eq_stream, ReadByte_some r r1 b h]
  rfl

/-- The line of `readLine`, wherever the fills of the buffer fall: the bytes up
to the first CR that has a byte after it. -/
theorem readLineLoop_stream (ds : Bytes) (x : UInt8) (rest : Bytes) (hds : CR ∉ ds) :
    ∀ (r : Reader) (fuel : Nat) (line : Bytes) (n : Nat),
      r.stream = ds ++ CR :: x :: rest → CR ∉ line → ds.length + 2 ≤ fuel →
      ∃ r', readLineLoop fuel r line n = .ok (line ++ ds, n + ds.length + 2) r' ∧
        r'.stream = rest := by
  induction ds with
  | nil =>
    intro r fuel line n hr hline hfuel
    obtain ⟨f, rfl⟩ : ∃ f, fuel = f + 2 := ⟨fuel - 2, by simp at hfuel; omega⟩
    simp only [List.nil_append] at hr
    cases h1 : r.ReadByte with
    | none => rw [(ReadByte_none_iff r).mp h1] at hr; cases hr
    | some p =>
      obtain ⟨b, r1⟩ := p
      have hs := ReadByte_some r r1 b h1
      rw [hr] at hs
      injection hs with hb hs1
      subst hb
      cases h2 : r1.ReadByte with
      | none => rw [(ReadByte_none_iff r1).mp h2] at hs1; cases hs1
      | some p2 =>
        obtain ⟨b2, r2⟩ := p2
        have hs2 := ReadByte_some r1 r2 b2 h2
        rw [← hs1] at hs2
        injection hs2 with hb2 hs3
        subst hb2
        refine ⟨r2, ?_, hs3.symm⟩
        simp only [readLineLoop, h1, h2, if_neg (no_break line CR hline)]
        have hb : 2 ≤ (line ++ [CR] ++ [x]).length ∧
            (line ++ [CR] ++ [x])[(line ++ [CR] ++ [x]).length - 2]? = some CR := by
          constructor
          · simp
          · have e : (line ++ [CR] ++ [x]).length - 2 = line.length := by simp
            rw [e, List.append_assoc, List.getElem?_append_right (le_refl _)]
            simp
        rw [if_pos hb]
        simp
  | cons d ds ih =>
    intro r fuel line n hr hline hfuel
    obtain ⟨f, rfl⟩ : ∃ f, fuel = f + 1 := ⟨fuel - 1, by simp at hfuel; omega⟩
    have hd : CR ∉ ds := fun h => hds (List.mem_cons_of_mem _ h)
    have hne : d ≠ CR := fun h => hds (h ▸ List.mem_cons_self _ _)
    cases h1 : r.ReadByte with
    | none => rw [(ReadByte_none_iff r).mp h1] at hr; cases hr
    | some p =>
      obtain ⟨b, r1⟩ := p
      have hs := ReadByte_some r r1 b h1
      rw [hr] at hs
      simp only [List.cons_append] at hs
      injection hs with hb hs1
      subst hb
      have hline' : CR ∉ line ++ [d] := by
        simp only [List.mem_append, List.mem_singleton, not_or]
        exact ⟨hline, fun h => hne h.symm⟩
      obtain ⟨r', hr', hst⟩ := ih hd r1 f (line ++ [d]) (n + 1) hs1.symm hline'
        (by simp at hfuel ⊢; omega)
      refine ⟨r', ?_, hst⟩
      simp only [readLineLoop, h1, if_neg (no_break line d hline), hr']
      simp only [List.append_assoc, List.singleton_append, List.length_cons]
      congr 2
      omega

theorem readLine_stream (r : Reader) (ds : Bytes) (x : UInt8) (rest : Bytes) (hds : CR ∉ ds)
    (hr : r.stream = ds ++ CR :: x :: rest) :
    ∃ r', readLine r = .ok (ds, ds.length + 2) r' ∧ r'.stream = rest := by
  have hrem : r.remaining = ds.length + (rest.length + 2) := by
    rw [remaining_eq_stream, hr]
    simp
  obtain ⟨r', h, hst⟩ := readLineLoop_stream ds x rest hds r (r.remaining + 1) [] 0 hr (by simp)
    (by omega)
  refine ⟨r', ?_, hst⟩
  simpa [readLine] using h

/-- Without a CR that has a byte after it `readLine` runs into the end of the
input. -/
theorem readLineLoop_eof : ∀ (q : Bytes) (r : Reader) (fuel : Nat) (line : Bytes) (n : Nat),
    r.stream = q → CR ∉ q.dropLast → CR ∉ line → q.length < fuel →
    ∃ r', readLineLoop fuel r line n = .fail ([], 0) .EOF r' ∧ r'.stream = []
  | [], r, fuel, line, n => by
    intro hr _ _ hfuel
    obtain ⟨f, rfl⟩ : ∃ f, fuel = f + 1 := ⟨fuel - 1, by omega⟩
    have h1 := (ReadByte_none_iff r).mpr hr
    exact ⟨r, by simp only [readLineLoop, h1], hr⟩
  | b :: q, r, fuel, line, n => by
    intro hr hq hline hfuel
    obtain ⟨f, rfl⟩ : ∃ f, fuel = f + 1 := ⟨fuel - 1, by omega⟩
    cases h1 : r.ReadByte with
    | none => rw [(ReadByte_none_iff r).mp h1] at hr; cases hr
    | some p =>
      obtain ⟨c, r1⟩ := p
      have hs := ReadByte_some r r1 c h1
      rw [hr] at hs
      injection hs with hb hs1
      subst hb
      cases q with
      | nil =>
        obtain ⟨f', rfl⟩ : ∃ f', f = f' + 1 := ⟨f - 1, by simp at hfuel; omega⟩
        have h2 := (ReadByte_none_iff r1).mpr hs1.symm
        refine ⟨r1, ?_, hs1.symm⟩
        simp only [readLineLoop, h1, h2, if_neg (no_break line b hline)]
      | cons c q' =>
        have hq' : CR ∉ (c :: q').dropLast := by
          intro h
          apply hq
          simp only [List.dropLast_cons₂]
          exact List.mem_cons_of_mem _ h
        have hb : b ≠ CR := by
          intro h
          apply hq
          simp only [List.dropLast_cons₂, h]
          exact List.mem_cons_self _ _
        have hline' : CR ∉ line ++ [b] := by
          simp only [List.mem_append, List.mem_singleton, not_or]
          exact ⟨hline, fun h => hb h.symm⟩
        obtain ⟨r', hr', hst⟩ := readLineLoop_eof (c :: q') r1 f (line ++ [b]) (n + 1)
          hs1.symm hq' hline' (by simp at hfuel ⊢; omega)
        refine ⟨r', ?_, hst⟩
        simp only [readLineLoop, h1, if_neg (no_break line b hline), hr']

theorem readLine_eof (r : Reader) (h : CR ∉ r.stream.dropLast) :
    ∃ r', readLine r = .fail ([], 0) .EOF r' ∧ r'.stream = [] := by
  have := readLineLoop_eof r.stream r (r.remaining + 1) [] 0 rfl h (by simp)
    (by rw [remaining_eq_stream]; omega)
  simpa [readLine] using this

/-! ## The length field -/

theorem parseUintLoop_ok_digits : ∀ (s : Bytes) (n m : Nat), parseUintLoop s n = .ok m →
    ∀ c ∈ s, (48 : UInt8) ≤ c ∧ c ≤ 57
  | [], _, _ => by intro _ c hc; cases hc
  | d :: s, n, m => by
    intro h c hc
    unfold parseUintLoop at h
    split at h
    · rename_i hd
      split at h
      · cases h
      · split at h
        · cases h
        · rcases List.mem_cons.mp hc with rfl | hc
          · exact hd
          · exact parseUintLoop_ok_digits s _ m h c hc
    · cases h

theorem parseUintLoop_error : ∀ (s : Bytes) (n : Nat) (e : Err), parseUintLoop s n = .error e →
    e = .ErrSyntax ∨ e = .ErrRange
  | [], _, _ => by intro h; cases h
  | d :: s, n, e => by
    intro h
    unfold parseUintLoop at h
    split at h
    · split at h
      · cases h; exact Or.inr rfl
      · split at h
        · cases h; exact Or.inr rfl
        · exact parseUintLoop_error s _ e h
    · cases h; exact Or.inl rfl

theorem ParseUint_ok_digits (s : Bytes) (m : Nat) (h : ParseUint s = .ok m) : isDigits s := by
  unfold ParseUint at h
  split at h
  · cases h
  · rename_i hne
    exact ⟨hne, parseUintLoop_ok_digits s 0 m h⟩

theorem ParseUint_error (s : Bytes) (e : Err) (h : ParseUint s = .error e) :
    e = .ErrSyntax ∨ e = .ErrRange := by
  unfold ParseUint at h
  split at h
  · cases h; exact Or.inl rfl
  · exact parseUintLoop_error s 0 e h

/-- What `ParseInt` takes is a length field: digits after an optional sign. -/
theorem ParseInt_ok_lengthField (line : Bytes) (i : Int) (h : ParseInt line = .ok i) :
    lengthField line := by
  cases line with
  | nil => cases h
  | cons c rest =>
    simp only [ParseInt] at h
    cases hu : ParseUint (if c = 43 ∨ c = 45 then rest else c :: rest) with
    | error e =>
      rw [hu] at h
      cases e <;> cases h
    | ok un =>
      have hd := ParseUint_ok_digits _ un hu
      by_cases hc : c = 43 ∨ c = 45
      · rw [if_pos hc] at hd
        refine Or.inr ⟨rest, ?_, hd⟩
        rcases hc with rfl | rfl
        · exact Or.inl rfl
        · exact Or.inr rfl
      · rw [if_neg hc] at hd
        exact Or.inl hd

theorem ParseInt_error (line : Bytes) (e : Err) (h : ParseInt line = .error e) :
    e = .ErrSyntax ∨ e = .ErrRange := by
  cases line with
  | nil => cases h; exact Or.inl rfl
  | cons c rest =>
    simp only [ParseInt] at h
    cases hu : ParseUint (if c = 43 ∨ c = 45 then rest else c :: rest) with
    | error e' =>
      rw [hu] at h
      have he := ParseUint_error _ e' hu
      cases e' with
      | EOF => rcases he with he | he <;> cases he
      | ErrSyntax => cases h; exact Or.inl rfl
      | ErrRange => cases h; exact Or.inr rfl
    | ok un =>
      rw [hu] at h
      simp only at h
      split at h
      · cases h; exact Or.inr rfl
      · split at h
        · cases h; exact Or.inr rfl
        · cases h

theorem ParseInt_not_lengthField (line : Bytes) (h : ¬ lengthField line) :
    ∃ e, ParseInt line = .error e ∧ (e = .ErrSyntax ∨ e = .ErrRange) := by
  cases hp : ParseInt line with
  | error e => exact ⟨e, rfl, ParseInt_error line e hp⟩
  | ok i => exact absurd (ParseInt_ok_lengthField line i hp) h

theorem readInteger_stream_error (r : Reader) (ds : Bytes) (x : UInt8) (rest : Bytes) (e : Err)
    (hds : CR ∉ ds) (hr : r.stream = ds ++ CR :: x :: rest) (hp : ParseInt ds = .error e) :
    ∃ r', readInteger r = .fail (0, ds.length + 2) e r' := by
  obtain ⟨r', h, _⟩ := readLine_stream r ds x rest hds hr
  exact ⟨r', by simp only [readInteger, h, hp]⟩

theorem readInteger_stream_ok (r : Reader) (ds : Bytes) (x : UInt8) (rest : Bytes) (i : Int)
    (hds : CR ∉ ds) (hr : r.stream = ds ++ CR :: x :: rest) (hp : ParseInt ds = .ok i) :
    ∃ r', readInteger r = .ok (i, ds.length + 2) r' ∧ r'.stream = rest := by
  obtain ⟨r', h, hst⟩ := readLine_stream r ds x rest hds hr
  exact ⟨r', by simp only [readInteger, h, hp], hst⟩

theorem readInteger_eof (r : Reader) (h : CR ∉ r.stream.dropLast) :
    ∃ r', readInteger r = .fail (0, 0) .EOF r' ∧ r'.stream = [] := by
  obtain ⟨r', h, hst⟩ := readLine_eof r h
  exact ⟨r', by simp only [readInteger, h], hst⟩

theorem Resp_Read_typed (t : UInt8) (tail : Bytes) :
    ∃ r1, r1.stream = tail ∧
      Resp.Read (NewResp (t :: tail))
        = (if t = ARRAY then readArray (ReadFuel (tail.length + 1)) r1
           else if t = BULK then readBulk r1 else .ok Value.zero r1) := by
  cases h1 : (NewResp (t :: tail)).ReadByte with
  | none =>
    have := (ReadByte_none_iff _).mp h1
    simp [NewResp, Reader.stream] at this
  | some p =>
    obtain ⟨b, r1⟩ := p
    have hs := ReadByte_some _ r1 b h1
    simp only [NewResp, Reader.stream, List.nil_append] at hs
    injection hs with hb hs1
    subst hb
    refine ⟨r1, hs1.symm, ?_⟩
    simp only [Resp.Read, NewResp, Reader.remaining, List.length_nil, Nat.zero_add,
      List.length_cons]
    simp only [NewResp] at h1
    rw [ReadFuel, h1]

/-- C12, as amended. After the type byte `*` or `$` the length field is the
bytes up to the first CR that has one more byte after it, whatever that byte
is. When the field is not a sequence of ASCII decimal digits after an optional
sign `+` or `-`, `Resp.Read` fails with the syntax or range error of
`strconv.ParseInt`; when no CR with a byte after it arrives, it fails with
`io.EOF`. -/
theorem malformed_length_fails (t : UInt8) (ht : t = ARRAY ∨ t = BULK) (tail : Bytes) :
    (∀ (ds : Bytes) (x : UInt8) (rest : Bytes), tail = ds ++ CR :: x :: rest → CR ∉ ds →
      ¬ lengthField ds →
      ∃ v e r, Resp.Read (NewResp (t :: tail)) = Res.fail v e r ∧
        (e = Err.ErrSyntax ∨ e = Err.ErrRange)) ∧
    (CR ∉ tail.dropLast →
      ∃ v r, Resp.Read (NewResp (t :: tail)) = Res.fail v Err.EOF r) := by
  obtain ⟨r1, hs, hread⟩ := Resp_Read_typed t tail
  have hne : BULK ≠ ARRAY := by decide
  constructor
  · intro ds x rest htail hds hlf
    obtain ⟨e, hp, he⟩ := ParseInt_not_lengthField ds hlf
    obtain ⟨r', hr'⟩ := readInteger_stream_error r1 ds x rest e hds (hs.trans htail) hp
    rcases ht with rfl | rfl
    · exact ⟨Value.mk "array" [] 0 [] [], e, r',
        by rw [hread, if_pos rfl]; simp only [readArray, hr'], he⟩
    · exact ⟨Value.mk "bulk" [] 0 [] [], e, r',
        by rw [hread, if_neg hne, if_pos rfl]; simp only [readBulk, hr'], he⟩
  · intro hq
    obtain ⟨r', hr', _⟩ := readInteger_eof r1 (hs ▸ hq)
    rcases ht with rfl | rfl
    · exact ⟨Value.mk "array" [] 0 [] [], r',
        by rw [hread, if_pos rfl]; simp only [readArray, hr']⟩
    · exact ⟨Value.mk "bulk" [] 0 [] [], r',
        by rw [hread, if_neg hne, if_pos rfl]; simp only [readBulk, hr']⟩

theorem malformed_length_fails_witness :
    (BULK = ARRAY ∨ BULK = BULK) ∧
    ascii "1x\r\nabc" = ascii "1x" ++ CR :: LF :: ascii "abc" ∧ CR ∉ ascii "1x" ∧
    ¬ lengthField (ascii "1x") ∧ CR ∉ (ascii "12").dropLast ∧
    (∃ v e r, Resp.Read (NewResp (BULK :: ascii "1x\r\nabc")) = Res.fail v e r ∧
      (e = Err.ErrSyntax ∨ e = Err.ErrRange)) ∧
    (∃ v r, Resp.Read (NewResp (BULK :: ascii "12")) = Res.fail v Err.EOF r) :=
  have hlf : ¬ lengthField (ascii "1x") := by
    rintro (⟨_, h⟩ | ⟨ds, h | h, _⟩)
    · exact absurd (h 120 (by decide)) (by decide)
    · exact absurd (List.head_eq_of_cons_eq h) (by decide)
    · exact absurd (List.head_eq_of_cons_eq h) (by decide)
  ⟨Or.inr rfl, by decide, by decide, hlf, by decide,
   (malformed_length_fails BULK (Or.inr rfl) (ascii "1x\r\nabc")).1 (ascii "1x") LF (ascii "abc")
     (by decide) (by decide) hlf,
   (malformed_length_fails BULK (Or.inr rfl) (ascii "12")).2 (by decide)⟩

/-- C12 fails on `$+1\r\na\r\n`, whose length field `+1` is not made of digits
after an optional `-`, and on `$1\rXa\r\n`, whose length field ends in CR X
and not in CR LF: `Resp.Read` returns the BulkString `a` with a `nil` error on
both. -/
theorem malformed_length_taken :
    Resp.Read (NewResp (ascii "$+1\r\na\r\n"))
      = Res.ok (Value.bulkString (ascii "a")) ⟨[], []⟩ ∧
    Resp.Read (NewResp (ascii "$1\rXa\r\n"))
      = Res.ok (Value.bulkString (ascii "a")) ⟨[], []⟩ ∧
    (¬ ∃ v e r, Resp.Read (NewResp (ascii "$+1\r\na\r\n")) = Res.fail v e r) ∧
    (¬ ∃ v e r, Resp.Read (NewResp (ascii "$1\rXa\r\n")) = Res.fail v e r) := by
  have h1 : Resp.Read (NewResp (ascii "$+1\r\na\r\n"))
      = Res.ok (Value.bulkString (ascii "a")) ⟨[], []⟩ := by rfl
  have h2 : Resp.Read (NewResp (ascii "$1\rXa\r\n"))
      = Res.ok (Value.bulkString (ascii "a")) ⟨[], []⟩ := by rfl
  refine ⟨h1, h2, ?_, ?_⟩
  · rintro ⟨v, e, r, h⟩
    rw [h1] at h
    cases h
  · rintro ⟨v, e, r, h⟩
    rw [h2] at h
    cases h

/-! ## A bulk payload inside the first fill of the buffer -/

theorem readBulk_buf_any (s : Bytes) (x : UInt8) (rest src : Bytes) (hs : s.length < 2 ^ 48) :
    readBulk ⟨Itoa (s.length : Int) ++ CR :: LF :: (s ++ CR :: x :: rest), src⟩
      = .ok (Value.mk "bulk" [] 0 s []) ⟨rest, src⟩ := by
  have hl := readLine_buf [] x rest src (by simp)
  simp only [List.nil_append] at hl
  simp only [readBulk, readInteger_buf s.length (by omega), if_neg (make_ok _ hs),
    Int.toNat_ofNat, Read_buf, hl]
  simp

/-- C13, as amended. For every payload `s` and every input made of `$`, the
decimal digits of the length of `s`, CR LF, the bytes of `s` (whatever they are),
a CR and one more byte, and then `rest`, all but `rest` within the first 4096
bytes (one fill of the buffer of the reader, from a file or an in-memory
reader): `Resp.Read` returns the BulkString `s` with a `nil` error and leaves
exactly `rest` to the next `Read`. -/
theorem bulk_read_by_length (s : Bytes) (x : UInt8) (rest : Bytes)
    (hfit : (BULK :: (Itoa (s.length : Int) ++ CR :: LF :: (s ++ [CR, x]))).length
      ≤ defaultBufSize) :
    ∃ r, Resp.Read (NewResp (BULK :: (Itoa (s.length : Int) ++ CR :: LF :: (s ++ [CR, x])) ++ rest))
        = Res.ok (Value.bulkString s) r ∧ r.stream = rest := by
  have hs : s.length < 2 ^ 48 := by
    simp only [List.length_cons, List.length_append, defaultBufSize] at hfit
    omega
  have ht : List.take defaultBufSize
      (BULK :: (Itoa (s.length : Int) ++ CR :: LF :: (s ++ [CR, x])) ++ rest)
      = BULK :: (Itoa (s.length : Int) ++ CR :: LF :: (s ++ CR :: x ::
          List.take (defaultBufSize -
            (BULK :: (Itoa (s.length : Int) ++ CR :: LF :: (s ++ [CR, x]))).length) rest)) := by
    rw [List.take_append_eq_append_take, List.take_of_length_le hfit]
    simp
  have hd : List.drop defaultBufSize
      (BULK :: (Itoa (s.length : Int) ++ CR :: LF :: (s ++ [CR, x])) ++ rest)
      = List.drop (defaultBufSize -
          (BULK :: (Itoa (s.length : Int) ++ CR :: LF :: (s ++ [CR, x]))).length) rest := by
    rw [List.drop_append_eq_append_drop, List.drop_of_length_le hfit]
    simp
  have hne : BULK ≠ ARRAY := by decide
  refine ⟨⟨List.take (defaultBufSize -
      (BULK :: (Itoa (s.length : Int) ++ CR :: LF :: (s ++ [CR, x]))).length) rest,
    List.drop (defaultBufSize -
      (BULK :: (Itoa (s.length : Int) ++ CR :: LF :: (s ++ [CR, x]))).length) rest⟩, ?_, ?_⟩
  · simp only [Resp.Read, NewResp, Reader.remaining, List.length_nil, Nat.zero_add]
    rw [ReadFuel_fill, ht, hd, ReadFuel]
    simp only [ReadByte_cons, if_neg hne, if_true]
    rw [readBulk_buf_any s x _ _ hs]
    rfl
  · simp only [Reader.stream, List.take_append_drop]

theorem bulk_read_by_length_witness :
    (BULK :: (Itoa ((ascii "a\r\nb").length : Int) ++ CR :: LF :: (ascii "a\r\nb" ++ [CR, LF]))).length
      ≤ defaultBufSize ∧
    ∃ r, Resp.Read (NewResp (BULK :: (Itoa ((ascii "a\r\nb").length : Int) ++ CR :: LF ::
          (ascii "a\r\nb" ++ [CR, LF])) ++ ascii "$1\r\nz\r\n"))
        = Res.ok (Value.bulkString (ascii "a\r\nb")) r ∧ r.stream = ascii "$1\r\nz\r\n" :=
  ⟨by decide, bulk_read_by_length (ascii "a\r\nb") LF (ascii "$1\r\nz\r\n") (by decide)⟩

/-- C13 fails on `$1\r\naXY$1\r\nz\r\n`, where the two bytes after the payload
are not a CR and a byte: `Resp.Read` returns the BulkString `a` and leaves only
`z\r\n`, having taken 6 bytes after the payload and not 2. It also fails on
the encoding of a BulkString of 4100 bytes `b`, of which 4089 are in the buffer
when `readBulk` calls `Read`: the value returned is not the next 4100 bytes. -/
theorem bulk_not_read_by_length :
    (Resp.Read (NewResp (ascii "$1\r\naXY$1\r\nz\r\n"))
        = Res.ok (Value.bulkString (ascii "a")) ⟨ascii "z\r\n", []⟩ ∧
      ascii "z\r\n" ≠ ascii "$1\r\nz\r\n") ∧
    (Resp.Read (NewResp (Marshal (Value.bulkString (List.replicate 4100 98))))
        = Res.ok (Value.bulkString (List.replicate 4089 98 ++ List.replicate 11 0)) ⟨[], []⟩ ∧
      Value.bulkString (List.replicate 4089 98 ++ List.replicate 11 0)
        ≠ Value.bulkString (List.replicate 4100 98)) := by
  refine ⟨⟨by rfl, by decide⟩, ⟨?_, ?_⟩⟩
  · exact Read_bulk_replicate 98 4089 11 (by decide) (by decide) (by decide) (by decide)
  · intro e
    exact corrupted_ne 98 4089 11 (by decide) (by decide) (bulkString_inj e)

/-! ## Every call ends, and on less input than it was given -/

theorem Res.Ends.mono {α : Type} {n m : Nat} (h : n ≤ m) :
    ∀ {res : Res α}, Res.Ends n res → Res.Ends m res
  | .ok _ _, he => Nat.le_trans he h
  | .fail _ _ _, he => ⟨Nat.le_trans he.1 h, he.2⟩
  | .panics, _ => trivial
  | .starved, he => he

theorem remaining_zero_of_none (r : Reader) (h : r.ReadByte = none) : r.remaining = 0 := by
  rw [remaining_eq_stream, (ReadByte_none_iff r).mp h]
  rfl

theorem readLineLoop_ends : ∀ (fuel : Nat) (r : Reader) (line : Bytes) (n : Nat),
    r.remaining < fuel → line.length = n →
    (∃ l m r', readLineLoop fuel r line n = .ok (l, m) r' ∧
      r'.remaining + m = r.remaining + n ∧ 2 ≤ m) ∨
    (∃ r', readLineLoop fuel r line n = .fail ([], 0) .EOF r' ∧ r'.remaining = 0)
  | 0, _, _, _ => by intro h; omega
  | fuel + 1, r, line, n => by
    intro hfuel hline
    cases h1 : r.ReadByte with
    | none =>
      exact Or.inr ⟨r, by simp only [readLineLoop, h1], remaining_zero_of_none r h1⟩
    | some p =>
      obtain ⟨b, r1⟩ := p
      have hrem := ReadByte_remaining r r1 b h1
      by_cases hb : 2 ≤ (line ++ [b]).length ∧
          (line ++ [b])[(line ++ [b]).length - 2]? = some CR
      · refine Or.inl ⟨(line ++ [b]).take ((line ++ [b]).length - 2), n + 1, r1,
          by simp only [readLineLoop, h1, if_pos hb], by omega, ?_⟩
        have := hb.1
        simp only [List.length_append, List.length_singleton] at this
        omega
      · rcases readLineLoop_ends fuel r1 (line ++ [b]) (n + 1) (by omega) (by simp [hline])
          with ⟨l, m, r', h, hr, hm⟩ | ⟨r', h, hr⟩
        · exact Or.inl ⟨l, m, r', by simp only [readLineLoop, h1, if_neg hb, h], by omega, hm⟩
        · exact Or.inr ⟨r', by simp only [readLineLoop, h1, if_neg hb, h], hr⟩

theorem readLine_ends (r : Reader) :
    (∃ l m r', readLine r = .ok (l, m) r' ∧ r'.remaining + 2 ≤ r.remaining) ∨
    (∃ r', readLine r = .fail ([], 0) .EOF r' ∧ r'.remaining = 0) := by
  rcases readLineLoop_ends (r.remaining + 1) r [] 0 (Nat.lt_succ_self _) rfl
    with ⟨l, m, r', h, hr, hm⟩ | ⟨r', h, hr⟩
  · exact Or.inl ⟨l, m, r', h, by omega⟩
  · exact Or.inr ⟨r', h, hr⟩

theorem readInteger_ends (r : Reader) :
    (∃ i m r', readInteger r = .ok (i, m) r' ∧ r'.remaining + 2 ≤ r.remaining) ∨
    (∃ a e r', readInteger r = .fail a e r' ∧ r'.remaining ≤ r.remaining ∧
      (e = Err.EOF → r'.remaining = 0)) := by
  rcases readLine_ends r with ⟨l, m, r', h, hr⟩ | ⟨r', h, hr⟩
  · cases hp : ParseInt l with
    | ok i => exact Or.inl ⟨i, m, r', by simp only [readInteger, h, hp], hr⟩
    | error e =>
      refine Or.inr ⟨(0, m), e, r', by simp only [readInteger, h, hp], by omega, ?_⟩
      intro he
      rcases ParseInt_error l e hp with h' | h' <;> rw [h'] at he <;> cases he
  · exact Or.inr ⟨(0, 0), .EOF, r', by simp only [readInteger, h], by omega, fun _ => hr⟩

theorem Read_remaining (r : Reader) (n : Nat) : (r.Read n).2.remaining ≤ r.remaining := by
  rcases r with ⟨buf, src⟩
  simp only [Reader.Read]
  split
  · exact Nat.le_refl _
  · cases buf with
    | nil =>
      simp only
      split
      all_goals simp [Reader.remaining, List.length_take, List.length_drop]
      all_goals omega
    | cons b bs =>
      simp [Reader.remaining, List.length_drop]

/-- `readBulk` ends: it returns or panics, on no more input than it was given. -/
theorem readBulk_ends (r : Reader) : Res.Ends r.remaining (readBulk r) := by
  rcases readInteger_ends r with ⟨i, m, r1, h, hr⟩ | ⟨a, e, r1, h, hr, he⟩
  · simp only [readBulk, h]
    split
    · trivial
    · have hrd := Read_remaining r1 i.toNat
      rcases readLine_ends (r1.Read i.toNat).2 with ⟨l, m', r3, h3, hr3⟩ | ⟨r3, h3, hr3⟩
      · simp only [h3, Res.Ends]
        omega
      · simp only [h3, Res.Ends]
        omega
  · simp only [readBulk, h, Res.Ends]
    exact ⟨hr, he⟩

theorem readArrayLoop_ends (rd : Reader → Res Value) (N : Nat)
    (hrd : ∀ r', r'.remaining ≤ N → Res.Ends r'.remaining (rd r')) :
    ∀ (k : Nat) (r : Reader) (acc : List Value), r.remaining ≤ N →
      Res.Ends r.remaining (readArrayLoop rd k r acc)
  | 0, r, acc => by
    intro _
    simp only [readArrayLoop, Res.Ends]
    exact Nat.le_refl _
  | k + 1, r, acc => by
    intro hr
    have h := hrd r hr
    simp only [readArrayLoop]
    cases hres : rd r with
    | ok val r1 =>
      rw [hres] at h
      simp only [Res.Ends] at h
      exact Res.Ends.mono h (readArrayLoop_ends rd N hrd k r1 (acc ++ [val]) (by omega))
    | fail a e r1 =>
      rw [hres] at h
      exact h
    | panics => trivial
    | starved => rw [hres] at h; exact h

theorem readArray_ends (rd : Reader → Res Value) (r : Reader)
    (hrd : ∀ r', r'.remaining + 2 ≤ r.remaining → Res.Ends r'.remaining (rd r')) :
    Res.Ends r.remaining (readArray rd r) := by
  rcases readInteger_ends r with ⟨i, m, r1, h, hr⟩ | ⟨a, e, r1, h, hr, he⟩
  · simp only [readArray, h]
    exact Res.Ends.mono (by omega)
      (readArrayLoop_ends rd r1.remaining (fun r' hr' => hrd r' (by omega)) i.toNat r1 []
        (Nat.le_refl _))
  · simp only [readArray, h, Res.Ends]
    exact ⟨hr, he⟩

/-- `Resp.Read` with a depth bound above the number of bytes left ends: it
returns or panics, on no more input than it was given. -/
theorem ReadFuel_ends : ∀ (fuel : Nat) (r : Reader), r.remaining < fuel →
    Res.Ends r.remaining (ReadFuel fuel r)
  | 0, _ => by intro h; omega
  | fuel + 1, r => by
    intro hfuel
    cases h1 : r.ReadByte with
    | none =>
      simp only [ReadFuel, h1, Res.Ends]
      exact ⟨Nat.le_refl _, fun _ => remaining_zero_of_none r h1⟩
    | some p =>
      obtain ⟨t, r1⟩ := p
      have hrem := ReadByte_remaining r r1 t h1
      simp only [ReadFuel, h1]
      split
      · exact Res.Ends.mono (by omega)
          (readArray_ends (ReadFuel fuel) r1 (fun r' hr' => ReadFuel_ends fuel r' (by omega)))
      · split
        · exact Res.Ends.mono (by omega) (readBulk_ends r1)
        · simp only [Res.Ends]
          omega

theorem Resp_Read_ends (r : Reader) : Res.Ends r.remaining (Resp.Read r) :=
  ReadFuel_ends (r.remaining + 1) r (Nat.lt_succ_self _)

/-! ## The recursive calls of `Resp.Read` -/

theorem readArrayLoop_ok_le (rd : Reader → Res Value)
    (hrd : ∀ r' v r'', rd r' = .ok v r'' → r''.remaining ≤ r'.remaining) :
    ∀ (k : Nat) (r : Reader) (acc : List Value) (v : Value) (r' : Reader),
      readArrayLoop rd k r acc = .ok v r' → r'.remaining ≤ r.remaining
  | 0, r, acc, v, r' => by
    intro h
    simp only [readArrayLoop, Res.ok.injEq] at h
    rw [← h.2]
  | k + 1, r, acc, v, r' => by
    intro h
    simp only [readArrayLoop] at h
    cases hres : rd r with
    | ok val r1 =>
      rw [hres] at h
      have h1 := hrd r val r1 hres
      have h2 := readArrayLoop_ok_le rd hrd k r1 (acc ++ [val]) v r' h
      omega
    | fail a e r1 => rw [hres] at h; cases h
    | panics => rw [hres] at h; cases h
    | starved => rw [hres] at h; cases h

/-- A `Read` that returns a value with a `nil` error has taken at least one
byte, whatever the depth bound. -/
theorem ReadFuel_ok_lt : ∀ (fuel : Nat) (r : Reader) (v : Value) (r' : Reader),
    ReadFuel fuel r = .ok v r' → r'.remaining < r.remaining
  | 0, _, _, _ => by intro h; cases h
  | fuel + 1, r, v, r' => by
    intro h
    cases h1 : r.ReadByte with
    | none => simp only [ReadFuel, h1] at h; cases h
    | some p =>
      obtain ⟨t, r1⟩ := p
      have hrem := ReadByte_remaining r r1 t h1
      simp only [ReadFuel, h1] at h
      split at h
      · simp only [readArray] at h
        rcases readInteger_ends r1 with ⟨i, m, r2, hi, hr⟩ | ⟨a, e, r2, hi, _, _⟩
        · rw [hi] at h
          have := readArrayLoop_ok_le (ReadFuel fuel)
            (fun x v x' hx => Nat.le_of_lt (ReadFuel_ok_lt fuel x v x' hx)) i.toNat r2 [] v r' h
          omega
        · rw [hi] at h; cases h
      · split at h
        · have he := readBulk_ends r1
          rw [h] at he
          simp only [Res.Ends] at he
          omega
        · simp only [Res.ok.injEq] at h
          rw [← h.2]
          omega

theorem readArrayLoop_congr (rd rd' : Reader → Res Value) (N : Nat)
    (hmono : ∀ r' v r'', rd r' = .ok v r'' → r''.remaining ≤ r'.remaining)
    (hagree : ∀ r', r'.remaining ≤ N → rd r' = rd' r') :
    ∀ (k : Nat) (r : Reader) (acc : List Value), r.remaining ≤ N →
      readArrayLoop rd k r acc = readArrayLoop rd' k r acc
  | 0, _, _ => by intro _; rfl
  | k + 1, r, acc => by
    intro hr
    have ha := hagree r hr
    simp only [readArrayLoop, ← ha]
    cases hres : rd r with
    | ok val r1 =>
      exact readArrayLoop_congr rd rd' N hmono hagree k r1 (acc ++ [val])
        (Nat.le_trans (hmono r val r1 hres) hr)
    | fail a e r1 => rfl
    | panics => rfl
    | starved => rfl

theorem readArray_congr (rd rd' : Reader → Res Value) (r : Reader)
    (hmono : ∀ r' v r'', rd r' = .ok v r'' → r''.remaining ≤ r'.remaining)
    (hagree : ∀ r', r'.remaining + 2 ≤ r.remaining → rd r' = rd' r') :
    readArray rd r = readArray rd' r := by
  rcases readInteger_ends r with ⟨i, m, r1, h, hr⟩ | ⟨a, e, r1, h, _, _⟩
  · simp only [readArray, h]
    exact readArrayLoop_congr rd rd' r1.remaining hmono (fun r' hr' => hagree r' (by omega))
      i.toNat r1 [] (Nat.le_refl _)
  · simp only [readArray, h]

/-- The body of `Resp.Read` calls `Resp.Read` only on readers that have at
least three bytes less to hand out: the type byte and a length line are gone. -/
theorem ReadStep_congr (rd rd' : Reader → Res Value) (r : Reader)
    (hmono : ∀ r' v r'', rd r' = .ok v r'' → r''.remaining ≤ r'.remaining)
    (hagree : ∀ r', r'.remaining + 3 ≤ r.remaining → rd r' = rd' r') :
    ReadStep rd r = ReadStep rd' r := by
  cases h1 : r.ReadByte with
  | none => simp only [ReadStep, h1]
  | some p =>
    obtain ⟨t, r1⟩ := p
    have hrem := ReadByte_remaining r r1 t h1
    simp only [ReadStep, h1]
    split
    · exact readArray_congr rd rd' r1 hmono (fun r' hr' => hagree r' (by omega))
    · rfl

theorem ReadFuel_succ (fuel : Nat) (r : Reader) :
    ReadFuel (fuel + 1) r = ReadStep (ReadFuel fuel) r := rfl

theorem ReadFuel_stable : ∀ (fuel : Nat) (r : Reader), r.remaining < fuel →
    ReadFuel (fuel + 1) r = ReadFuel fuel r
  | 0, _ => by intro h; omega
  | fuel + 1, r => by
    intro hr
    rw [ReadFuel_succ (fuel + 1), ReadFuel_succ fuel]
    exact ReadStep_congr _ _ r
      (fun x v x' hx => Nat.le_of_lt (ReadFuel_ok_lt (fuel + 1) x v x' hx))
      (fun r' hr' => ReadFuel_stable fuel r' (by omega))

theorem ReadFuel_add (r : Reader) : ∀ (d : Nat),
    ReadFuel (r.remaining + 1 + d) r = ReadFuel (r.remaining + 1) r
  | 0 => rfl
  | d + 1 => by
    rw [← Nat.add_assoc, ReadFuel_stable _ r (by omega)]
    exact ReadFuel_add r d

theorem ReadFuel_enough (fuel : Nat) (r : Reader) (h1 : 1 ≤ fuel) (hr : r.remaining ≤ fuel) :
    ReadFuel fuel r = Resp.Read r := by
  by_cases hlt : r.remaining < fuel
  · obtain ⟨d, rfl⟩ : ∃ d, fuel = r.remaining + 1 + d := ⟨fuel - (r.remaining + 1), by omega⟩
    exact ReadFuel_add r d
  · have he : fuel = r.remaining := by omega
    obtain ⟨f, hf⟩ : ∃ f, fuel = f + 1 := ⟨fuel - 1, by omega⟩
    simp only [Resp.Read]
    rw [← he, hf, ReadFuel_succ (f + 1), ReadFuel_succ f]
    exact ReadStep_congr _ _ r
      (fun x v x' hx => Nat.le_of_lt (ReadFuel_ok_lt f x v x' hx))
      (fun r' hr' => (ReadFuel_stable f r' (by omega)).symm)

/-! ## Where `Resp.Read` panics -/

theorem readInteger_ne_panics (r : Reader) : readInteger r ≠ .panics := by
  intro hp
  rcases readInteger_ends r with ⟨i, m, r1, h, _⟩ | ⟨a, e, r1, h, _⟩
  all_goals rw [h] at hp
  all_goals cases hp

/-- `readBulk` panics exactly where the length line holds a number that `make`
refuses: a negative one, or one above `maxAlloc`. -/
theorem readBulk_panics_iff (r : Reader) :
    readBulk r = .panics ↔
      ∃ len n r1, readInteger r = .ok (len, n) r1 ∧ (len < 0 ∨ maxAlloc < len) := by
  rcases readInteger_ends r with ⟨i, m, r1, h, _⟩ | ⟨a, e, r1, h, _⟩
  · constructor
    · intro hp
      by_cases hc : i < 0 ∨ maxAlloc < i
      · exact ⟨i, m, r1, h, hc⟩
      · simp only [readBulk, h, if_neg hc] at hp
        rcases readLine_ends (r1.Read i.toNat).2 with ⟨l, m', r3, h3, _⟩ | ⟨r3, h3, _⟩
        all_goals rw [h3] at hp
        all_goals cases hp
    · rintro ⟨len, n, r', he, hc⟩
      rw [h] at he
      cases he
      simp only [readBulk, h, if_pos hc]
  · constructor
    · intro hp
      simp only [readBulk, h] at hp
      cases hp
    · rintro ⟨len, n, r', he, _⟩
      rw [h] at he
      cases he

theorem readArrayLoop_panics (rd : Reader → Res Value) :
    ∀ (k : Nat) (r : Reader) (acc : List Value),
      readArrayLoop rd k r acc = .panics → ∃ r', rd r' = .panics
  | 0, _, _ => by intro h; cases h
  | k + 1, r, acc => by
    intro h
    simp only [readArrayLoop] at h
    cases hres : rd r with
    | ok val r1 =>
      rw [hres] at h
      exact readArrayLoop_panics rd k r1 (acc ++ [val]) h
    | fail a e r1 => rw [hres] at h; cases h
    | panics => exact ⟨r, hres⟩
    | starved => rw [hres] at h; cases h

theorem ReadFuel_panics : ∀ (fuel : Nat) (r : Reader),
    ReadFuel fuel r = .panics → ∃ r1, readBulk r1 = .panics
  | 0, _ => by intro h; cases h
  | fuel + 1, r => by
    intro h
    rw [ReadFuel] at h
    cases hb : r.ReadByte with
    | none => rw [hb] at h; cases h
    | some p =>
      obtain ⟨t, r1⟩ := p
      rw [hb] at h
      simp only at h
      by_cases ha : t = ARRAY
      · rw [if_pos ha] at h
        cases hi : readInteger r1 with
        | ok p r2 =>
          obtain ⟨len, n⟩ := p
          simp only [readArray, hi] at h
          obtain ⟨r', hr'⟩ := readArrayLoop_panics _ _ _ _ h
          exact ReadFuel_panics fuel r' hr'
        | fail a e r2 => simp only [readArray, hi] at h; cases h
        | panics => exact (readInteger_ne_panics r1 hi).elim
        | starved => simp only [readArray, hi] at h; cases h
      · rw [if_neg ha] at h
        by_cases hk : t = BULK
        · rw [if_pos hk] at h
          exact ⟨r1, h⟩
        · rw [if_neg hk] at h
          cases h

/-- `Resp.Read` panics in the `make([]byte, len)` of `readBulk` and nowhere
else: when it panics, some bulk length line of the input holds a negative
number or one above `maxAlloc`. -/
theorem Resp_Read_panics (r : Reader) (h : Resp.Read r = .panics) :
    ∃ r1 len n r2, readInteger r1 = .ok (len, n) r2 ∧ (len < 0 ∨ maxAlloc < len) := by
  obtain ⟨r1, h1⟩ := ReadFuel_panics _ r h
  obtain ⟨len, n, r2, h2⟩ := (readBulk_panics_iff r1).mp h1
  exact ⟨r1, len, n, r2, h2⟩

/-! ## What `Resp.Read` returns -/

theorem readArrayLoop_typ (rd : Reader → Res Value) :
    ∀ (k : Nat) (r : Reader) (acc : List Value) (v : Value) (r' : Reader),
      readArrayLoop rd k r acc = .ok v r' → v.typ = "array"
  | 0, _, _, _, _ => by
    intro h
    simp only [readArrayLoop, Res.ok.injEq] at h
    rw [← h.1]
    rfl
  | k + 1, r, acc, v, r' => by
    intro h
    simp only [readArrayLoop] at h
    cases hres : rd r with
    | ok val r1 =>
      rw [hres] at h
      exact readArrayLoop_typ rd k r1 (acc ++ [val]) v r' h
    | fail a e r1 => rw [hres] at h; cases h
    | panics => rw [hres] at h; cases h
    | starved => rw [hres] at h; cases h

theorem readBulk_typ (r : Reader) (v : Value) (r' : Reader) (h : readBulk r = .ok v r') :
    v.typ = "bulk" := by
  rcases readInteger_ends r with ⟨i, m, r1, hi, _⟩ | ⟨a, e, r1, hi, _⟩
  · by_cases hc : i < 0 ∨ maxAlloc < i
    · simp only [readBulk, hi, if_pos hc] at h
      cases h
    · simp only [readBulk, hi, if_neg hc] at h
      rcases readLine_ends (r1.Read i.toNat).2 with ⟨l, m', r3, h3, _⟩ | ⟨r3, h3, _⟩
      all_goals rw [h3] at h
      all_goals simp only [Res.ok.injEq] at h
      all_goals rw [← h.1]
      all_goals rfl
  · simp only [readBulk, hi] at h
    cases h

/-- A value that `Resp.Read` returns with a `nil` error is an array, a bulk
string or, after an unknown type byte, the zero value. -/
theorem Resp_Read_typ (r : Reader) (v : Value) (r' : Reader) (h : Resp.Read r = .ok v r') :
    v.typ = "array" ∨ v.typ = "bulk" ∨ v = Value.zero := by
  simp only [Resp.Read] at h
  rw [ReadFuel] at h
  cases hb : r.ReadByte with
  | none => rw [hb] at h; cases h
  | some p =>
    obtain ⟨t, r1⟩ := p
    rw [hb] at h
    simp only at h
    by_cases ha : t = ARRAY
    · rw [if_pos ha] at h
      cases hi : readInteger r1 with
      | ok p r2 =>
        obtain ⟨len, n⟩ := p
        simp only [readArray, hi] at h
        exact Or.inl (readArrayLoop_typ _ _ _ _ _ _ h)
      | fail a e r2 => simp only [readArray, hi] at h; cases h
      | panics => simp only [readArray, hi] at h; cases h
      | starved => simp only [readArray, hi] at h; cases h
    · rw [if_neg ha] at h
      by_cases hk : t = BULK
      · rw [if_pos hk] at h
        exact Or.inr (Or.inl (readBulk_typ _ _ _ h))
      · rw [if_neg hk] at h
        simp only [Res.ok.injEq] at h
        exact Or.inr (Or.inr h.1.symm)

/-- `Resp.Read` never returns Null: no branch of the decoder builds the type
`"null"`. -/
theorem Resp_Read_never_null (r r' : Reader) : Resp.Read r ≠ .ok Value.null r' := by
  intro h
  rcases Resp_Read_typ r _ r' h with h1 | h1 | h1
  · exact absurd h1 (by decide)
  · exact absurd h1 (by decide)
  · exact absurd (congrArg Value.typ h1) (by decide)

/-- The recursion of `Resp.Read` is well founded: the body of `Read` calls
`Read` again only on strictly shorter input (at least three bytes less, the
type byte and a length line), so a nesting depth equal to the length of the
input is enough whatever the array counts; the call ends by returning a value
with or without an error, or by a panic of `make` in `readBulk`, and a value
returned with a `nil` error has cost at least one byte. -/
theorem read_terminates (r : Reader) :
    ((∃ v r', Resp.Read r = Res.ok v r' ∧ r'.remaining < r.remaining) ∨
      (∃ v e r', Resp.Read r = Res.fail v e r') ∨ Resp.Read r = Res.panics) ∧
    Resp.Read r ≠ Res.starved ∧
    (∀ fuel, 1 ≤ fuel → r.remaining ≤ fuel → ReadFuel fuel r = Resp.Read r) ∧
    (∀ fuel, ReadFuel (fuel + 1) r = ReadStep (ReadFuel fuel) r) ∧
    (∀ rd rd' : Reader → Res Value,
      (∀ r' v r'', rd r' = Res.ok v r'' → r''.remaining ≤ r'.remaining) →
      (∀ r', r'.remaining + 3 ≤ r.remaining → rd r' = rd' r') →
      ReadStep rd r = ReadStep rd' r) := by
  have he := Resp_Read_ends r
  refine ⟨?_, ?_, fun fuel h1 hr => ReadFuel_enough fuel r h1 hr, fun fuel => rfl,
    fun rd rd' hmono hagree => ReadStep_congr rd rd' r hmono hagree⟩
  · cases h : Resp.Read r with
    | ok v r' => exact Or.inl ⟨v, r', rfl, ReadFuel_ok_lt _ r v r' h⟩
    | fail v e r' => exact Or.inr (Or.inl ⟨v, e, r', rfl⟩)
    | panics => exact Or.inr (Or.inr rfl)
    | starved => rw [h] at he; exact he.elim
  · intro h
    rw [h] at he
    exact he

theorem read_terminates_witness :
    1 ≤ 15 ∧ (NewResp (ascii "*1\r\n*1\r\n$1\r\na\r\n")).remaining ≤ 15 ∧
    ReadFuel 15 (NewResp (ascii "*1\r\n*1\r\n$1\r\na\r\n"))
      = Resp.Read (NewResp (ascii "*1\r\n*1\r\n$1\r\na\r\n")) ∧
    Resp.Read (NewResp (ascii "*1\r\n*1\r\n$1\r\na\r\n"))
      = Res.ok (Value.arrayOf [Value.arrayOf [Value.bulkString (ascii "a")]]) ⟨[], []⟩ ∧
    ReadStep Resp.Read (NewResp (ascii "*1\r\n*1\r\n$1\r\na\r\n"))
      = ReadStep (ReadFuel 15) (NewResp (ascii "*1\r\n*1\r\n$1\r\na\r\n")) :=
  have h := read_terminates (NewResp (ascii "*1\r\n*1\r\n$1\r\na\r\n"))
  have hrem : (NewResp (ascii "*1\r\n*1\r\n$1\r\na\r\n")).remaining ≤ 15 := by decide
  ⟨by decide, hrem, h.2.2.1 15 (by decide) hrem, by rfl,
   h.2.2.2.2 Resp.Read (ReadFuel 15)
     (fun r' v r'' hx => Nat.le_of_lt (ReadFuel_ok_lt _ r' v r'' hx))
     (fun r' hr' => (ReadFuel_enough 15 r' (by decide) (by omega)).symm)⟩

/-- C20 fails in the code. On `*1\r\n$-5\r\n` and on
`$9223372036854775807\r\n` `Resp.Read` does not return: `readBulk` hands the
number of the length line unchecked to `make([]byte, len)`, which panics on
`-5` and on a length above `maxAlloc`. A negative count of an array, `*-5\r\n`,
is read as the empty array, and a bulk length of 0 as the empty string. -/
theorem read_panics_in_make :
    (Resp.Read (NewResp (ascii "*1\r\n$-5\r\n")) = Res.panics ∧
      (¬ ∃ v r, Resp.Read (NewResp (ascii "*1\r\n$-5\r\n")) = Res.ok v r) ∧
      (¬ ∃ v e r, Resp.Read (NewResp (ascii "*1\r\n$-5\r\n")) = Res.fail v e r)) ∧
    (Resp.Read (NewResp (ascii "$9223372036854775807\r\n")) = Res.panics ∧
      (¬ ∃ v r, Resp.Read (NewResp (ascii "$9223372036854775807\r\n")) = Res.ok v r) ∧
      (¬ ∃ v e r,
        Resp.Read (NewResp (ascii "$9223372036854775807\r\n")) = Res.fail v e r)) ∧
    Resp.Read (NewResp (ascii "*-5\r\n")) = Res.ok (Value.arrayOf []) ⟨[], []⟩ ∧
    Resp.Read (NewResp (ascii "$0\r\n\r\n")) = Res.ok (Value.bulkString []) ⟨[], []⟩ := by
  have h : Resp.Read (NewResp (ascii "*1\r\n$-5\r\n")) = Res.panics := by rfl
  have h' : Resp.Read (NewResp (ascii "$9223372036854775807\r\n")) = Res.panics := by rfl
  refine ⟨⟨h, ?_, ?_⟩, ⟨h', ?_, ?_⟩, by rfl, by rfl⟩
  · rintro ⟨v, r, hr⟩
    rw [h] at hr
    cases hr
  · rintro ⟨v, e, r, hr⟩
    rw [h] at hr
    cases hr
  · rintro ⟨v, r, hr⟩
    rw [h'] at hr
    cases hr
  · rintro ⟨v, e, r, hr⟩
    rw [h'] at hr
    cases hr

/-! ## The file offset after `Aof.Read` -/

theorem aofReadLoop_clean (content : Bytes) : ∀ (fuel : Nat) (reader : Reader)
    (calls calls' : List Value) (aof' : Aof),
    aofReadLoop content fuel reader calls = AofRes.ret calls' none aof' →
    aof'.file = ⟨content, content.length⟩
  | 0, _, _, _, _ => by intro h; cases h
  | fuel + 1, reader, calls, calls', aof' => by
    intro h
    have he := Resp_Read_ends reader
    simp only [aofReadLoop] at h
    cases hres : Resp.Read reader with
    | ok value reader1 =>
      rw [hres] at h
      exact aofReadLoop_clean content fuel reader1 _ calls' aof' h
    | fail a e reader1 =>
      rw [hres] at h he
      simp only [Res.Ends] at he
      simp only at h
      split at h
      · rename_i heof
        have h0 := he.2 heof
        simp only [Reader.remaining] at h0
        have hs : reader1.src.length = 0 := by omega
        simp only [AofRes.ret.injEq] at h
        rw [← h.2.2, hs]
        rfl
      · simp only [AofRes.ret.injEq] at h
        exact absurd h.2.1 (by simp)
    | panics => rw [hres] at h; cases h
    | starved => rw [hres] at h; cases h

/-- After an `Aof.Read` that returned `nil` the offset is at the end of the
file, and `Aof.Write` puts the encoding of its value after what the file held. -/
theorem Aof_Write_after_Read (aof aof' : Aof) (calls : List Value) (v : Value)
    (h : Aof.Read aof = AofRes.ret calls none aof') :
    (Aof.Write aof' v).file.content = aof.file.content ++ Marshal v := by
  have hf := aofReadLoop_clean _ _ _ _ _ _ h
  simp [Aof.Write, File.Write, hf]

/-! ## Truncated input -/

theorem marshalElems_append (xs ys : List Value) :
    marshalElems (xs ++ ys) = marshalElems xs ++ marshalElems ys := by
  induction xs with
  | nil => rfl
  | cons x xs ih => simp [marshalElems, ih]

theorem allReq_append (xs ys : List Value) :
    allReq (xs ++ ys) = (allReq xs && allReq ys) := by
  induction xs with
  | nil => rfl
  | cons x xs ih => simp [allReq, ih, Bool.and_assoc]

theorem isReq_arrayOf (xs : List Value) : isReq (Value.arrayOf xs) = allReq xs := by
  simp [isReq, Value.arrayOf]

theorem Marshal_arrayOf (xs : List Value) :
    Marshal (Value.arrayOf xs)
      = ARRAY :: (Itoa (xs.length : Int) ++ CR :: LF :: marshalElems xs) := by
  simp [Marshal, Value.arrayOf]

theorem Marshal_bulkString (s : Bytes) :
    Marshal (Value.bulkString s)
      = BULK :: (Itoa (s.length : Int) ++ CR :: LF :: (s ++ [CR, LF])) := by
  simp [Marshal, marshalBulk, Value.bulk, Value.bulkString]

theorem CR_not_mem_dropLast_take (ds : Bytes) (x : UInt8) (j : Nat) (hds : CR ∉ ds)
    (hj : j < (ds ++ [CR, x]).length) : CR ∉ ((ds ++ [CR, x]).take j).dropLast := by
  rw [List.dropLast_take hj]
  have hle : j - 1 ≤ ds.length := by
    simp only [List.length_append, List.length_cons, List.length_nil] at hj
    omega
  rw [List.take_append_of_le_length hle]
  exact fun h => hds (List.mem_of_mem_take h)

/-- A cut is a proper prefix of the encoding, and not empty. -/
theorem Cut.proper : ∀ {v : Value} {p : Bytes}, Cut v p → isReq v = true →
    p ≠ [] ∧ ∃ q, q ≠ [] ∧ Marshal v = p ++ q := by
  intro v p h
  induction h with
  | bulkLine s j hj =>
    intro _
    refine ⟨by simp, (Itoa (s.length : Int) ++ [CR, LF]).drop j ++ (s ++ [CR, LF]), by simp, ?_⟩
    rw [Marshal_bulkString, List.cons_append, ← List.append_assoc, List.take_append_drop]
    simp
  | arrayLine xs j hj =>
    intro _
    refine ⟨by simp, (Itoa (xs.length : Int) ++ [CR, LF]).drop j ++ marshalElems xs, ?_, ?_⟩
    · intro h
      have hl := congrArg List.length h
      simp only [List.length_append, List.length_drop, List.length_nil] at hl
      simp only [List.length_append] at hj
      omega
    · rw [Marshal_arrayOf, List.cons_append, ← List.append_assoc, List.take_append_drop]
      simp
  | arrayElem pre x post =>
    intro hreq
    rw [isReq_arrayOf, allReq_append] at hreq
    simp only [allReq, Bool.and_eq_true] at hreq
    refine ⟨by simp, Marshal x ++ marshalElems post, ?_, ?_⟩
    · intro h
      have hl := congrArg List.length h
      have := Marshal_pos x hreq.2.1
      simp only [List.length_append, List.length_nil] at hl
      omega
    · rw [Marshal_arrayOf, marshalElems_append]
      simp [marshalElems]
  | arrayIn pre x post c _ ih =>
    intro hreq
    rw [isReq_arrayOf, allReq_append] at hreq
    simp only [allReq, Bool.and_eq_true] at hreq
    obtain ⟨_, q, hq, hm⟩ := ih hreq.2.1
    refine ⟨by simp, q ++ marshalElems post, by simp [hq], ?_⟩
    rw [Marshal_arrayOf, marshalElems_append]
    simp [marshalElems, hm]

/-- On a cut that is all the input, `Resp.Read` fails with `io.EOF`. -/
theorem Cut.fails : ∀ {v : Value} {p : Bytes}, Cut v p → isReq v = true →
    (Marshal v).length < 2 ^ 63 → ∀ (fuel : Nat), p.length < fuel → p.length < 2 ^ 48 →
    ∃ w r, ReadFuel fuel ⟨p, []⟩ = .fail w .EOF r := by
  intro v p h
  induction h with
  | bulkLine s j hj =>
    intro _ _ fuel hfuel _
    obtain ⟨f, rfl⟩ : ∃ f, fuel = f + 1 := ⟨fuel - 1, by omega⟩
    have hne : BULK ≠ ARRAY := by decide
    have hcr := CR_not_mem_dropLast_take _ LF j (CR_not_mem_Itoa s.length) hj
    obtain ⟨r', hr', _⟩ := readInteger_eof ⟨(Itoa (s.length : Int) ++ [CR, LF]).take j, []⟩
      (by simpa [Reader.stream] using hcr)
    exact ⟨Value.mk "bulk" [] 0 [] [], r', by
      rw [ReadFuel]
      simp only [ReadByte_cons, if_neg hne, if_true, readBulk, hr']⟩
  | arrayLine xs j hj =>
    intro _ _ fuel hfuel _
    obtain ⟨f, rfl⟩ : ∃ f, fuel = f + 1 := ⟨fuel - 1, by omega⟩
    have hcr := CR_not_mem_dropLast_take _ LF j (CR_not_mem_Itoa xs.length) hj
    obtain ⟨r', hr', _⟩ := readInteger_eof ⟨(Itoa (xs.length : Int) ++ [CR, LF]).take j, []⟩
      (by simpa [Reader.stream] using hcr)
    exact ⟨Value.mk "array" [] 0 [] [], r', by
      rw [ReadFuel]
      simp only [ReadByte_cons, if_true, readArray, hr']⟩
  | arrayElem pre x post =>
    intro hreq hsize fuel hfuel hmem
    obtain ⟨f, rfl⟩ : ∃ f, fuel = f + 1 := ⟨fuel - 1, by omega⟩
    have hall := hreq
    rw [isReq_arrayOf] at hall
    have hlen := length_le_marshalElems _ hall
    rw [allReq_append] at hall
    simp only [Bool.and_eq_true] at hall
    rw [Marshal_arrayOf] at hsize
    simp only [List.length_cons, List.length_append, marshalElems_append] at hsize hfuel hlen hmem
    obtain ⟨f', rfl⟩ : ∃ f', f = f' + 1 := ⟨f - 1, by omega⟩
    have hlast : ReadFuel (f' + 1) ⟨[], []⟩ = .fail Value.zero .EOF ⟨[], []⟩ := rfl
    have hn : (pre ++ x :: post).length = pre.length + (post.length + 1) := by simp
    refine ⟨Value.mk "array" [] 0 [] ([] ++ pre), ⟨[], []⟩, ?_⟩
    rw [ReadFuel]
    simp only [ReadByte_cons, if_true, readArray,
      readInteger_buf (pre ++ x :: post).length (by rw [hn]; omega), Int.toNat_ofNat]
    rw [hn]
    have hskip := readArrayLoop_skip pre hall.1 (f' + 1) (post.length + 1) [] [] []
      (by omega) (by omega)
    simp only [List.append_nil] at hskip
    rw [hskip]
    simp only [readArrayLoop, hlast]
  | arrayIn pre x post c _ ih =>
    intro hreq hsize fuel hfuel hmem
    obtain ⟨f, rfl⟩ : ∃ f, fuel = f + 1 := ⟨fuel - 1, by omega⟩
    have hall := hreq
    rw [isReq_arrayOf] at hall
    have hlen := length_le_marshalElems _ hall
    rw [allReq_append] at hall
    simp only [allReq, Bool.and_eq_true] at hall
    rw [Marshal_arrayOf] at hsize
    simp only [List.length_cons, List.length_append, marshalElems_append, marshalElems]
      at hsize hfuel hlen hmem
    obtain ⟨w, r, hc⟩ := ih hall.2.1 (by omega) f (by omega) (by omega)
    have hn : (pre ++ x :: post).length = pre.length + (post.length + 1) := by simp
    refine ⟨Value.mk "array" [] 0 [] ([] ++ pre), r, ?_⟩
    rw [ReadFuel]
    simp only [ReadByte_cons, if_true, readArray,
      readInteger_buf (pre ++ x :: post).length (by rw [hn]; omega), Int.toNat_ofNat]
    rw [hn]
    rw [readArrayLoop_skip pre hall.1 f (post.length + 1) c [] [] (by omega) (by omega)]
    simp only [readArrayLoop, hc]

theorem aofReadLoop_skip (content : Bytes) : ∀ (vs : List Value), allReq vs = true →
    ∀ (k : Nat) (rest : Bytes) (calls : List Value), (marshalElems vs).length < 2 ^ 48 →
    aofReadLoop content (vs.length + k) ⟨marshalElems vs ++ rest, []⟩ calls
      = aofReadLoop content k ⟨rest, []⟩ (calls ++ vs)
  | [] => by
    intro _ k rest calls _
    simp [marshalElems]
  | v :: vs => by
    intro hall k rest calls hsize
    simp only [allReq, Bool.and_eq_true] at hall
    simp only [marshalElems, List.length_append] at hsize
    have e : (v :: vs).length + k = (vs.length + k) + 1 := by simp; omega
    rw [e]
    simp only [aofReadLoop, marshalElems, List.append_assoc,
      Resp_Read_buf v hall.1 (marshalElems vs ++ rest) (by omega)]
    rw [aofReadLoop_skip content vs hall.2 k rest (calls ++ [v]) (by omega)]
    simp

theorem aofReadLoop_fill (content d : Bytes) (fuel : Nat) (calls : List Value)
    (hd : d.length ≤ defaultBufSize) :
    aofReadLoop content fuel (NewResp d) calls = aofReadLoop content fuel ⟨d, []⟩ calls := by
  have hfirst : Resp.Read (NewResp d) = Resp.Read ⟨d, []⟩ := by
    have := Resp_Read_split d [] (Or.inr rfl) hd
    simp only [List.append_nil] at this
    rw [this]
    simp [Resp.Read, Reader.remaining]
  cases fuel with
  | zero => rfl
  | succ f => simp only [aofReadLoop, hfirst]

/-- C11, as amended. For every value `v` built from the Array and BulkString
variants, every prefix `p` of `Marshal v` that ends inside a length line or
right before an element of an array (not inside a bulk payload or the CRLF
after it), such a `p` being a non-empty proper prefix, and every list `vs` of
such values, the log that holds the encodings of `vs` and then `p` being at
most 4096 bytes long (one fill of the buffer of the reader, from a file or an
in-memory reader): `Resp.Read` on `p` fails with `io.EOF` itself, the error it
returns when the input ends before a new value, and `Aof.Read` on the log calls
`fn` on `vs` and returns `nil`. -/
theorem truncated_reads_as_eof (v : Value) (p : Bytes) (vs : List Value)
    (hreq : isReq v = true) (hcut : Cut v p) (hv : (Marshal v).length < 2 ^ 63)
    (hall : allReq vs = true) (hfit : (marshalElems vs ++ p).length ≤ defaultBufSize) :
    (p ≠ [] ∧ ∃ q, q ≠ [] ∧ Marshal v = p ++ q) ∧
    (∃ w r, Resp.Read (NewResp p) = Res.fail w Err.EOF r) ∧
    Resp.Read (NewResp []) = Res.fail Value.zero Err.EOF ⟨[], []⟩ ∧
    (∃ aof, Aof.Read (NewAof (marshalElems vs ++ p)) = AofRes.ret vs none aof) := by
  have hp : p.length ≤ defaultBufSize := by
    simp only [List.length_append] at hfit
    omega
  have hmem : p.length < 2 ^ 48 := by
    simp only [defaultBufSize] at hp
    omega
  have hread : ∃ w r, Resp.Read ⟨p, []⟩ = Res.fail w Err.EOF r := by
    simp only [Resp.Read, Reader.remaining, List.length_nil, Nat.add_zero]
    exact hcut.fails hreq hv (p.length + 1) (Nat.lt_succ_self _) hmem
  refine ⟨hcut.proper hreq, ?_, rfl, ?_⟩
  · have h := Resp_Read_split p [] (Or.inr rfl) hp
    simp only [List.append_nil] at h
    rw [h]
    exact hcut.fails hreq hv (p.length + 1) (Nat.lt_succ_self _) hmem
  · obtain ⟨w, r, hr⟩ := hread
    have hlen := length_le_marshalElems vs hall
    have hsz : (marshalElems vs).length < 2 ^ 48 := by
      simp only [List.length_append, defaultBufSize] at hfit
      omega
    obtain ⟨k, hk⟩ : ∃ k, (marshalElems vs ++ p).length + 1 = vs.length + (k + 1) :=
      ⟨(marshalElems vs ++ p).length - vs.length, by
        simp only [List.length_append]; omega⟩
    simp only [Aof.Read, NewAof]
    rw [aofReadLoop_fill _ _ _ _ hfit, hk, aofReadLoop_skip _ vs hall (k + 1) p [] hsz]
    refine ⟨⟨⟨marshalElems vs ++ p, (marshalElems vs ++ p).length - r.src.length⟩⟩, ?_⟩
    simp only [aofReadLoop, hr, List.nil_append, if_true]

theorem truncated_reads_as_eof_witness :
    isReq (Value.arrayOf ([Value.bulkString (ascii "SET")] ++ Value.bulkString (ascii "k") ::
      [Value.bulkString (ascii "v")])) = true ∧
    Cut (Value.arrayOf ([Value.bulkString (ascii "SET")] ++ Value.bulkString (ascii "k") ::
        [Value.bulkString (ascii "v")]))
      (ARRAY :: (Itoa (([Value.bulkString (ascii "SET")] ++ Value.bulkString (ascii "k") ::
        [Value.bulkString (ascii "v")]).length : Int) ++ CR :: LF ::
          marshalElems [Value.bulkString (ascii "SET")])) ∧
    ARRAY :: (Itoa (([Value.bulkString (ascii "SET")] ++ Value.bulkString (ascii "k") ::
        [Value.bulkString (ascii "v")]).length : Int) ++ CR :: LF ::
          marshalElems [Value.bulkString (ascii "SET")]) = ascii "*3\r\n$3\r\nSET\r\n" ∧
    allReq [Value.arrayOf [Value.bulkString (ascii "PING")]] = true ∧
    (∃ w r, Resp.Read (NewResp (ascii "*3\r\n$3\r\nSET\r\n")) = Res.fail w Err.EOF r) ∧
    (∃ aof, Aof.Read (NewAof (marshalElems [Value.arrayOf [Value.bulkString (ascii "PING")]] ++
        ascii "*3\r\n$3\r\nSET\r\n"))
      = AofRes.ret [Value.arrayOf [Value.bulkString (ascii "PING")]] none aof) :=
  have h := truncated_reads_as_eof
    (Value.arrayOf ([Value.bulkString (ascii "SET")] ++ Value.bulkString (ascii "k") ::
      [Value.bulkString (ascii "v")]))
    (ARRAY :: (Itoa (([Value.bulkString (ascii "SET")] ++ Value.bulkString (ascii "k") ::
      [Value.bulkString (ascii "v")]).length : Int) ++ CR :: LF ::
        marshalElems [Value.bulkString (ascii "SET")]))
    [Value.arrayOf [Value.bulkString (ascii "PING")]] (by decide)
    (Cut.arrayElem [Value.bulkString (ascii "SET")] (Value.bulkString (ascii "k"))
      [Value.bulkString (ascii "v")]) (by decide) (by decide) (by decide)
  ⟨by decide,
   Cut.arrayElem [Value.bulkString (ascii "SET")] (Value.bulkString (ascii "k"))
     [Value.bulkString (ascii "v")],
   by decide, by decide, h.2.1, h.2.2.2⟩

/-- C11 fails on `*3\r\n$3\r\nSET\r\n`, a proper prefix of the encoding of
SET k v: `Resp.Read` fails with `io.EOF`, the very error of a clean end, and
`Aof.Read` on a log that is this prefix returns `nil`. It fails too on
`$3\r\nab`, a proper prefix of the encoding of the BulkString `abc`, on which
`Resp.Read` returns a value with a `nil` error. -/
theorem truncated_not_told_apart :
    (Marshal (Value.arrayOf [Value.bulkString (ascii "SET"), Value.bulkString (ascii "k"),
        Value.bulkString (ascii "v")])
      = ascii "*3\r\n$3\r\nSET\r\n" ++ ascii "$1\r\nk\r\n$1\r\nv\r\n") ∧
    Resp.Read (NewResp (ascii "*3\r\n$3\r\nSET\r\n"))
      = Res.fail (Value.arrayOf [Value.bulkString (ascii "SET")]) Err.EOF ⟨[], []⟩ ∧
    Resp.Read (NewResp []) = Res.fail Value.zero Err.EOF ⟨[], []⟩ ∧
    Aof.Read (NewAof (ascii "*3\r\n$3\r\nSET\r\n"))
      = AofRes.ret [] none ⟨⟨ascii "*3\r\n$3\r\nSET\r\n", 13⟩⟩ ∧
    Marshal (Value.bulkString (ascii "abc")) = ascii "$3\r\nab" ++ ascii "c\r\n" ∧
    Resp.Read (NewResp (ascii "$3\r\nab")) = Res.ok (Value.bulkString [97, 98, 0]) ⟨[], []⟩ := by
  have h : Resp.Read (NewResp (ascii "*3\r\n$3\r\nSET\r\n"))
      = Res.fail (Value.arrayOf [Value.bulkString (ascii "SET")]) Err.EOF ⟨[], []⟩ := by rfl
  refine ⟨by rfl, h, by rfl, ?_, by rfl, by rfl⟩
  simp only [Aof.Read, NewAof, aofReadLoop, h, if_true]
  rfl

end RedisGo
